import Mathlib

/-!
Verification development for the C++20 serialization library
(`serialization_impl.h`, `serialization.h`, `common/serialization_macros.h`,
`common/helper.h`, `common/reflection.h`).

The library serializes a closed family of value categories (primitives,
sequence/set/map containers, fixed arrays, pairs, tuples, optionals,
variants, reflectable aggregates, unique/shared owned handles) to three
backings: a JSON tree (`nlohmann::ordered_json`), an XML tagged tree
(`pugi::xml_node`) and a positional byte stream
(`serialization::multi_process_stream`).

We shallow-embed the traversal engine of `serialization_impl.h` over a
first-order universe `Ty` of static types and an untyped value domain
`Val` mirroring the C++ runtime values.  Each backing's
`archiver_wrapper` specialization (`serialization.h`) is embedded as a
concrete archive data type plus the push/pop/get/resize/size operations
the wrapper defines.  The byte stream itself (`util/multi_process_stream.h`)
is not part of the sources; it is modelled from the spec as a positional
token sequence, each token carrying its byte width (fixed-width numbers,
length-prefixed strings).

Two facts about the sources matter throughout and are modelled exactly:

* `SERIALIZATION_THROW(code, ...)` is defined as an *empty* macro
  (`serialization_impl.h` line 131), so every `SERIALIZATION_CHECK`
  evaluates its condition and then does nothing on failure; none of the
  documented error kinds (SizeMismatch, InvalidIndex, RecursionLimit,
  NullPointer, MissingField, RegistryNotFound, InvalidVariant) can ever
  be raised.  The embedding keeps the check sites (`serializationCheck`)
  but, like the source, never fails there.
* `detail::serialization_context` (depth counter, `max_depth = 1000`)
  is defined but never instantiated by `save`/`load`; no traversal
  tracks depth.
-/

namespace SerialModel

/-- `serialization::EMPTY_NAME` — the empty-sentinel class name. -/
def EMPTY_NAME : String := "null object!"

/-- `serialization::CLASS_NAME` — JSON key / XML attribute for the type name. -/
def CLASS_NAME : String := "Class"

/-- `serialization::SIZE_NAME` — XML attribute holding a container size. -/
def SIZE_NAME : String := "Size"

/-- `serialization::INDEX_NAME` — the variant tag field name. -/
def INDEX_NAME : String := "Index"

/-- `serialization::VALUE_NAME` — the variant payload field name. -/
def VALUE_NAME : String := "Value"

/-- `detail::serialization_context.max_depth` (source line 97). -/
def contextMaxDepth : Nat := 1000

/-- Error kinds.  `detail::serialization_error::error_code` is referenced in
the sources only inside `SERIALIZATION_CHECK` / `SERIALIZATION_THROW`
invocations, which expand to nothing; the only failures that can actually
happen at runtime are backing-level decode failures (`nlohmann` type
errors) and undefined behaviour (out-of-bounds dispatch, null
dereference).  `mismatch` marks states unreachable from statically typed
C++ (a `Val` whose shape disagrees with its `Ty`). -/
inductive SErr where
  | decode
  | undefined
  | mismatch
deriving DecidableEq, Repr

/-- Model of `SERIALIZATION_CHECK(cond, code, ...)`: the condition is
evaluated and the result discarded, because `SERIALIZATION_THROW` is the
empty macro (`serialization_impl.h` lines 131-141).  The check never
fails. -/
def serializationCheck (_cond : Bool) : Except SErr Unit := .ok ()

/-- The universe of static C++ types covered by the embedding, one
constructor per serialization strategy of the type classifier
(`serialization_concepts.h`): `BaseSerializable` primitives (bool, int,
std::string, std::monostate), sequence containers, set-like and map-like
associative containers, `std::array`, `std::pair`, `std::tuple`,
`std::optional`, `std::variant`, reflectable aggregates (class name plus
ordered member descriptor, `common/reflection.h`), shared and unique
owned handles.  Placeholder descriptor entries (`reflection_empty`) and
the remaining primitive kinds (floats, enums, the domain string types)
are not included in the universe. -/
inductive Ty : Type where
  | tbool
  | tint
  | tstr
  | tunit
  | tvec (t : Ty)
  | tset (t : Ty)
  | tmap (k v : Ty)
  | tarr (t : Ty) (n : Nat)
  | tpair (a b : Ty)
  | ttup (ts : List Ty)
  | topt (t : Ty)
  | tvar (ts : List Ty)
  | tobj (cname : String) (fields : List (String × Ty))
  | tshared (t : Ty)
  | tuniq (t : Ty)

/-- Untyped runtime values, mirroring the C++ objects handed to
`serialization::save` / filled in by `serialization::load`.
`vobj` carries the object's *dynamic* class name (what
`detail::polymorphic_type_name` returns for it) together with its member
values in descriptor order; for an object constructed as its static type
the dynamic name equals the static `tobj` name.  `vshared` carries the
pointee's dynamic class name and value; `none` is a null handle.
`vuniq none` is a null `unique_ptr`. -/
inductive Val : Type where
  | vb (b : Bool)
  | vi (n : Int)
  | vs (s : String)
  | vunit
  | vvec (xs : List Val)
  | vset (xs : List Val)
  | vmap (ps : List (Val × Val))
  | varr (xs : List Val)
  | vpair (a b : Val)
  | vtup (xs : List Val)
  | vopt (o : Option Val)
  | vvar (tag : Nat) (v : Val)
  | vobj (dyn : String) (fields : List Val)
  | vshared (o : Option (String × Val))
  | vuniq (o : Option Val)

/-- Modelled from the spec: `serialization::demangle`
(`util/string_util.h` is not under `src/`) produces the canonical
demangled name of a type; the spec treats these names as opaque
identifiers, unique per concrete type and identical across formats.  For
reflectable aggregates the name is the one stored in the descriptor; for
the other categories we pick fixed representative spellings (only
equality of names is ever used). -/
def tyName : Ty → String
  | .tbool => "bool"
  | .tint => "int"
  | .tstr => "std::string"
  | .tunit => "std::monostate"
  | .tvec _ => "std::vector"
  | .tset _ => "std::set"
  | .tmap _ _ => "std::map"
  | .tarr _ _ => "std::array"
  | .tpair _ _ => "std::pair"
  | .ttup _ => "std::tuple"
  | .topt _ => "std::optional"
  | .tvar _ => "std::variant"
  | .tobj c _ => c
  | .tshared _ => "std::shared_ptr"
  | .tuniq _ => "std::unique_ptr"

/-- A per-format polymorphic registry (`util/registry.h` +
`register_serializer_impl`): maps a demangled type name to the concrete
registered type; the registered callback is
`register_serializer_impl<Archiver, T>`, i.e. save/load at that concrete
type.  `none` models `Has(name) == false`. -/
def Reg : Type := String → Option Ty

/-- A registry with no registrations. -/
def emptyReg : Reg := fun _ => none

/-- Whether a type is reflectable (`Reflectable<T>`): in the universe,
exactly the `tobj` aggregates. -/
def isObjTy : Ty → Bool
  | .tobj _ _ => true
  | _ => false

/-- `T()` value-initialization, as produced by
`access::serializer::make_ptr<T>` (`new T()`) or by skipping the member
loop in `load_object` when the stored class name is the empty sentinel:
zeroed primitives, empty containers, a default-constructed first
alternative for variants, null handles. -/
def defaultVal : Ty → Val
  | .tbool => .vb false
  | .tint => .vi 0
  | .tstr => .vs ""
  | .tunit => .vunit
  | .tvec _ => .vvec []
  | .tset _ => .vset []
  | .tmap _ _ => .vmap []
  | .tarr t n => .varr (List.replicate n (defaultVal t))
  | .tpair a b => .vpair (defaultVal a) (defaultVal b)
  | .ttup ts => .vtup (ts.attach.map fun el => defaultVal el.1)
  | .topt _ => .vopt none
  | .tvar ts =>
      match ts with
      | [] => .vvar 0 .vunit
      | t :: _ => .vvar 0 (defaultVal t)
  | .tobj c fs => .vobj c (fs.attach.map fun el => defaultVal el.1.2)
  | .tshared _ => .vshared none
  | .tuniq _ => .vuniq none
decreasing_by
  all_goals simp_wf
  all_goals try omega
  all_goals try (have h := List.sizeOf_lt_of_mem el.2; omega)
  all_goals
    (obtain ⟨⟨a, b⟩, hm⟩ := el
     have h := List.sizeOf_lt_of_mem hm
     simp at h ⊢
     omega)

/-- Sequence a list of fallible results (the C++ loops abort the whole
call on the first propagated exception). -/
def exSeq {α : Type} : List (Except SErr α) → Except SErr (List α)
  | [] => .ok []
  | e :: es => do
      let x ← e
      let xs ← exSeq es
      .ok (x :: xs)

@[simp]
theorem exOk_bind {α β : Type} (a : α) (f : α → Except SErr β) :
    (Except.ok a : Except SErr α) >>= f = f a := rfl

@[simp]
theorem exErr_bind {α β : Type} (e : SErr) (f : α → Except SErr β) :
    (Except.error e : Except SErr α) >>= f = .error e := rfl

@[simp]
theorem exOk_map {α β : Type} (a : α) (f : α → β) :
    (Except.ok a : Except SErr α).map f = .ok (f a) := rfl

@[simp]
theorem exErr_map {α β : Type} (e : SErr) (f : α → β) :
    (Except.error e : Except SErr α).map f = .error e := rfl

@[simp]
theorem serializationCheck_bind {β : Type} (c : Bool) (f : Unit → Except SErr β) :
    serializationCheck c >>= f = f () := rfl

/-!
## JSON backing

`nlohmann::ordered_json` tree (`archiver_wrapper<json>` in
`serialization.h`): objects keep insertion order, `operator[]` on a key
finds the existing member or yields a null node, `operator[]` on an
index past the end yields null nodes, `resize` is a no-op, `size` is the
child count.  `get<T>()` on a node of the wrong kind throws
(`SErr.decode`).  Numbers are held exactly (the textual printer/parser
is the external collaborator and is lossless per the spec's primitive
encoding contract).
-/

/-- JSON tree (`nlohmann::ordered_json`); object members keep insertion
order. -/
inductive Json : Type where
  | null
  | jb (b : Bool)
  | num (n : Int)
  | str (s : String)
  | arr (xs : List Json)
  | obj (ms : List (String × Json))

/-- `archiver_wrapper<json>::size`: element count; nlohmann reports 0
for null and 1 for primitives. -/
def jsonSize : Json → Nat
  | .arr xs => xs.length
  | .obj ms => ms.length
  | .null => 0
  | _ => 1

/-- `archiver_wrapper<json>::get(archive, i)`: the i-th element of an
array; reading past the end (or from a non-array, which the mutable
overload would first turn into an array) yields a null node. -/
def jGetIdx (j : Json) (i : Nat) : Json :=
  match j with
  | .arr xs => xs.getD i .null
  | _ => .null

/-- `archiver_wrapper<json>::get(archive, name)`: the member with the
given key; a missing key reads as a null node (the mutable `operator[]`
creates one). -/
def jGetKey (j : Json) (k : String) : Json :=
  match j with
  | .obj ms =>
      match ms.find? (fun m => m.1 = k) with
      | some m => m.2
      | none => .null
  | _ => .null

/-- `archiver_wrapper<json>::pop_class_name`: missing `Class` member or
a non-string value yield the empty string (with a logged warning). -/
def jsonPopClass (j : Json) : String :=
  match j with
  | .obj ms =>
      match ms.find? (fun m => m.1 = CLASS_NAME) with
      | some (_, .str s) => s
      | some _ => ""
      | none => ""
  | _ => ""

/-- `archiver_wrapper<json>::pop_index`: `archive[name].get<unsigned>()`;
throws on a non-numeric node. -/
def jsonPopIdx (j : Json) (k : String) : Except SErr Nat :=
  match jGetKey j k with
  | .num n => .ok n.toNat
  | _ => .error .decode

/-- `pop` for `bool` (`archive.get<bool>()`). -/
def jsonPopBool : Json → Except SErr Bool
  | .jb b => .ok b
  | _ => .error .decode

/-- `pop` for `int` (`archive.get<int>()`). -/
def jsonPopInt : Json → Except SErr Int
  | .num n => .ok n
  | _ => .error .decode

/-- `pop` for `std::string` (`archive.get<std::string>()`). -/
def jsonPopStr : Json → Except SErr String
  | .str s => .ok s
  | _ => .error .decode

/-- `serialization::save` instantiated at `Archiver = json`
(`impl::serializer_impl::save` dispatch plus the container / array /
pair / tuple / optional / variant / smart-pointer specializations of
`serialization_impl.h`).  Saving into a fresh null node is a pure
construction: `resize` is a no-op and the indexed/keyed `get` writes
build exactly the arrays/objects below, in write order.  `fuel` bounds
registry dispatches only: the registry indirection is the one recursion
of the source that does not structurally decrease (save at the
registered type). -/
def jsonSave (ρ : Reg) (fuel : Nat) : Ty → Val → Except SErr Json
  | .tbool, .vb b => .ok (.jb b)
  | .tint, .vi n => .ok (.num n)
  | .tstr, .vs s => .ok (.str s)
  | .tunit, .vunit => .ok .null
  | .tvec t, .vvec xs =>
      (exSeq (xs.map fun x => jsonSave ρ fuel t x)).map .arr
  | .tset t, .vset xs =>
      (exSeq (xs.map fun x => jsonSave ρ fuel t x)).map .arr
  | .tmap k v, .vmap ps => do
      let qs ← exSeq (ps.map fun p => do
        let jk ← jsonSave ρ fuel k p.1
        let jv ← jsonSave ρ fuel v p.2
        Except.ok (jk, jv))
      .ok (.arr (qs.flatMap fun q => [q.1, q.2]))
  | .tarr t _, .varr xs =>
      (exSeq (xs.map fun x => jsonSave ρ fuel t x)).map .arr
  | .tpair a b, .vpair x y => do
      let ja ← jsonSave ρ fuel a x
      let jbv ← jsonSave ρ fuel b y
      .ok (.arr [ja, jbv])
  | .ttup ts, .vtup xs =>
      if xs.length = ts.length then
        (exSeq (List.zipWith (fun el x => jsonSave ρ fuel el.1 x) ts.attach xs)).map .arr
      else .error .mismatch
  | .topt t, .vopt o =>
      match o with
      | none => .ok (.arr [.jb false])
      | some x => (jsonSave ρ fuel t x).map fun jv => .arr [.jb true, jv]
  | .tvar ts, .vvar tag x =>
      match h : ts.get? tag with
      | some t =>
          (jsonSave ρ fuel t x).map fun jv =>
            .obj [(INDEX_NAME, .num tag), (VALUE_NAME, jv)]
      | none => .error .mismatch
  | .tobj _ fs, .vobj dyn vs =>
      if fs.length ≤ vs.length then do
        let ms ← exSeq (List.zipWith
          (fun el x => (jsonSave ρ fuel el.1.2 x).map fun jv => (el.1.1, jv))
          fs.attach vs)
        .ok (.obj ((CLASS_NAME, .str dyn) :: ms))
      else .error .mismatch
  | .tshared t, .vshared o =>
      match o with
      | none => .ok (.obj [(CLASS_NAME, .str EMPTY_NAME)])
      | some (dn, pv) =>
          if isObjTy t then
            -- push_class_name(dyn) then save the pointee by value at the static
            -- element type into the same node; save_object rewrites `Class`
            -- with the same dynamic name, so the node is the object's own save
            jsonSave ρ fuel t pv
          else
            match ρ dn with
            | some t' =>
                -- registry callback: save at the registered type into the same
                -- node; a primitive push replaces the node (and its Class member)
                match fuel with
                | 0 => .error .undefined
                | m + 1 => jsonSave ρ m t' pv
            | none => .ok (.obj [(CLASS_NAME, .str dn)])
  | .tuniq t, .vuniq o =>
      match o with
      | none => .error .undefined
        -- null unique_ptr: the NullPointer check is a disabled no-op and
        -- `*object` dereferences null
      | some pv => jsonSave ρ fuel t pv
  | _, _ => .error .mismatch
termination_by t v => (fuel, sizeOf t)
decreasing_by
  all_goals simp_wf
  all_goals try (apply Prod.Lex.left; omega)
  all_goals apply Prod.Lex.right
  all_goals try omega
  all_goals try (have h2 := List.sizeOf_lt_of_mem el.2; omega)
  all_goals try (have h2 := List.sizeOf_lt_of_mem (List.get?_mem h); omega)
  all_goals
    (obtain ⟨⟨a, b⟩, hm⟩ := el
     have h2 := List.sizeOf_lt_of_mem hm
     simp at h2 ⊢
     omega)

/-- `serialization::load` instantiated at `Archiver = json`
(`impl::serializer_impl::load` dispatch and specializations).  All
`SERIALIZATION_CHECK` sites appear as `serializationCheck`, which — like
the empty `SERIALIZATION_THROW` macro — never fails.  The tree is read
pure: a missing key/index reads as a null node.  `fuel` as in
`jsonSave`. -/
def jsonLoad (ρ : Reg) (fuel : Nat) : Ty → Json → Except SErr Val
  | .tbool, j => (jsonPopBool j).map .vb
  | .tint, j => (jsonPopInt j).map .vi
  | .tstr, j => (jsonPopStr j).map .vs
  | .tunit, _ => .ok .vunit
  | .tvec t, j =>
      (exSeq ((List.range (jsonSize j)).map fun i =>
        jsonLoad ρ fuel t (jGetIdx j i))).map .vvec
  | .tset t, j =>
      (exSeq ((List.range (jsonSize j)).map fun i =>
        jsonLoad ρ fuel t (jGetIdx j i))).map .vset
  | .tmap k v, j => do
      let n := jsonSize j
      serializationCheck (n % 2 = 0)
      let ps ← exSeq ((List.range (n / 2)).map fun i => do
        let kv ← jsonLoad ρ fuel k (jGetIdx j (2 * i))
        let vv ← jsonLoad ρ fuel v (jGetIdx j (2 * i + 1))
        Except.ok (kv, vv))
      .ok (.vmap ps)
  | .tarr t n, j => do
      serializationCheck (jsonSize j = n)
      (exSeq ((List.range n).map fun i => jsonLoad ρ fuel t (jGetIdx j i))).map .varr
  | .tpair a b, j => do
      let x ← jsonLoad ρ fuel a (jGetIdx j 0)
      let y ← jsonLoad ρ fuel b (jGetIdx j 1)
      .ok (.vpair x y)
  | .ttup ts, j => do
      serializationCheck (jsonSize j = ts.length)
      let xs ← exSeq (List.zipWith (fun el i => jsonLoad ρ fuel el.1 (jGetIdx j i))
        ts.attach (List.range ts.length))
      .ok (.vtup xs)
  | .topt t, j => do
      serializationCheck (1 ≤ jsonSize j)
      let b ← jsonPopBool (jGetIdx j 0)
      if b then do
        serializationCheck (2 ≤ jsonSize j)
        let x ← jsonLoad ρ fuel t (jGetIdx j 1)
        Except.ok (.vopt (some x))
      else .ok (.vopt none)
  | .tvar ts, j => do
      let tag ← jsonPopIdx j INDEX_NAME
      serializationCheck (tag < ts.length)
      match h : ts.get? tag with
      | some t => (jsonLoad ρ fuel t (jGetKey j VALUE_NAME)).map (.vvar tag)
      | none => .error .undefined
        -- the InvalidIndex check is a disabled no-op and `loaders[index]`
        -- reads past the end of the loader table
  | .tobj c fs, j =>
      if fs.isEmpty then .ok (.vobj c [])
      else do
        let cn := jsonPopClass j
        serializationCheck (cn ≠ "")
        if cn = EMPTY_NAME then
          -- the member loop and the initialize hook are skipped; the target
          -- object keeps its default-initialized state
          Except.ok (.vobj c (fs.attach.map fun el => defaultVal el.1.2))
        else do
          let vs ← exSeq (fs.attach.map fun el =>
            jsonLoad ρ fuel el.1.2 (jGetKey j el.1.1))
          -- access::serializer::initialize(obj) runs here (no value effect)
          Except.ok (.vobj c vs)
  | .tshared t, j =>
      let cn := jsonPopClass j
      if cn = EMPTY_NAME then .ok (.vshared none)
      else
        match ρ cn with
        | some t' =>
            match fuel with
            | 0 => .error .undefined
            | m + 1 =>
                -- registry callback (`register_serializer_impl`): construct the
                -- registered concrete type, load it, install it in the handle
                (jsonLoad ρ m t' j).map fun v => .vshared (some (tyName t', v))
        | none =>
            if isObjTy t then
              -- push the class name back (rewrites the same value) and load
              -- the pointee by value at the static element type
              (jsonLoad ρ fuel t j).map fun v => .vshared (some (tyName t, v))
            else
              -- RegistryNotFound: SERIALIZATION_THROW is the empty macro, so
              -- the handle is left untouched (null when fresh)
              .ok (.vshared none)
  | .tuniq t, j => (jsonLoad ρ fuel t j).map fun v => .vuniq (some v)
termination_by t j => (fuel, sizeOf t)
decreasing_by
  all_goals simp_wf
  all_goals try (apply Prod.Lex.left; omega)
  all_goals apply Prod.Lex.right
  all_goals try omega
  all_goals try (have h2 := List.sizeOf_lt_of_mem el.2; omega)
  all_goals try (have h2 := List.sizeOf_lt_of_mem (List.get?_mem h); omega)
  all_goals
    (obtain ⟨⟨a, b⟩, hm⟩ := el
     have h2 := List.sizeOf_lt_of_mem hm
     simp at h2 ⊢
     omega)

/-!
## Well-typedness and supported-type side conditions
-/

/-- `v` is a runtime value of static type `t`, restricted to the
monomorphic case: shapes and lengths agree, a variant's tag addresses
one of its alternatives, an object's dynamic name is its static class
name (the plain by-value case), and unique handles are non-null
(saving a null `unique_ptr` dereferences null, since the NullPointer
check is compiled out).  The shared-handle case adds the one
restriction that goes beyond C++'s static typing: the pointee's
dynamic type must equal the handle's static element type.  C++ itself
lets a `shared_ptr<base>` own a `derived` object; such polymorphic
values are deliberately excluded from this predicate — the library
does not round-trip them, because the save path serializes through the
static descriptor (see the round-trip counterexamples) — so the
round-trip theorems claim nothing about them. -/
def wf : Ty → Val → Bool
  | .tbool, .vb _ => true
  | .tint, .vi _ => true
  | .tstr, .vs _ => true
  | .tunit, .vunit => true
  | .tvec t, .vvec xs => xs.attach.all fun el => wf t el.1
  | .tset t, .vset xs => xs.attach.all fun el => wf t el.1
  | .tmap k v, .vmap ps => ps.attach.all fun el => wf k el.1.1 && wf v el.1.2
  | .tarr t n, .varr xs => xs.length = n && xs.attach.all fun el => wf t el.1
  | .tpair a b, .vpair x y => wf a x && wf b y
  | .ttup ts, .vtup xs =>
      xs.length = ts.length &&
        (ts.zip xs).attach.all fun el => wf el.1.1 el.1.2
  | .topt t, .vopt o =>
      match o with
      | none => true
      | some x => wf t x
  | .tvar ts, .vvar tag x =>
      match h : ts.get? tag with
      | some t => wf t x
      | none => false
  | .tobj c fs, .vobj dyn vs =>
      dyn = c && fs.length = vs.length &&
        (fs.zip vs).attach.all fun el => wf el.1.1.2 el.1.2
  | .tshared t, .vshared o =>
      match o with
      | none => true
      | some (dn, pv) => dn = tyName t && wf t pv
  | .tuniq t, .vuniq o =>
      match o with
      | none => false
      | some pv => wf t pv
  | _, _ => false
termination_by t v => sizeOf t
decreasing_by
  all_goals simp_wf
  all_goals try omega
  all_goals try (have h2 := List.sizeOf_lt_of_mem el.2; omega)
  all_goals try (have h2 := List.sizeOf_lt_of_mem (List.get?_mem h); omega)
  all_goals try
    (obtain ⟨⟨ft, fv⟩, hm⟩ := el
     have h2 := List.sizeOf_lt_of_mem (List.of_mem_zip hm).1
     simp at h2 ⊢
     omega)
  all_goals
    (obtain ⟨⟨⟨nm, ft⟩, fv⟩, hm⟩ := el
     have h2 := List.sizeOf_lt_of_mem (List.of_mem_zip hm).1
     simp at h2 ⊢
     omega)

/-- All strings in the list distinct. -/
def allDistinct : List String → Bool
  | [] => true
  | s :: r => (r.all fun x => decide (x ≠ s)) && allDistinct r

/-- Admissible static types for the round-trip law: the library's
supported categories restricted exactly as its code demands.
Aggregates must have a nonempty descriptor (every
`SERIALIZATION_MACRO` emits at least one entry), a nonempty class name
distinct from the empty sentinel, and member names that are distinct,
nonempty and different from the reserved `Class` key (a member stored
under `Class` would overwrite the type name in the JSON object).
Variants respect the compile-time arity bound (`static_assert(... <= 255)`).
Shared handles must own a reflectable element type: for an unregistered
non-reflectable element the save path writes only the class name and the
load path leaves the handle null (both the registry lookup and the
RegistryNotFound throw are no-ops), so such types do not round-trip. -/
def goodTy : Ty → Bool
  | .tbool => true
  | .tint => true
  | .tstr => true
  | .tunit => true
  | .tvec t => goodTy t
  | .tset t => goodTy t
  | .tmap k v => goodTy k && goodTy v
  | .tarr t _ => goodTy t
  | .tpair a b => goodTy a && goodTy b
  | .ttup ts => ts.attach.all fun el => goodTy el.1
  | .topt t => goodTy t
  | .tvar ts => ts.length ≤ 255 && ts.attach.all fun el => goodTy el.1
  | .tobj c fs =>
      !(c = "") && !(c = EMPTY_NAME) && !fs.isEmpty &&
      allDistinct (fs.map Prod.fst) &&
      fs.attach.all fun el =>
        !(el.1.1 = "") && !(el.1.1 = CLASS_NAME) && goodTy el.1.2
  | .tshared t => isObjTy t && goodTy t
  | .tuniq t => goodTy t
termination_by t => sizeOf t
decreasing_by
  all_goals simp_wf
  all_goals try omega
  all_goals try (have h2 := List.sizeOf_lt_of_mem el.2; omega)
  all_goals
    (obtain ⟨⟨a, b⟩, hm⟩ := el
     have h2 := List.sizeOf_lt_of_mem hm
     simp at h2 ⊢
     omega)

/-!
## Generic list round-trip utilities
-/

theorem exSeq_nil {α : Type} : exSeq ([] : List (Except SErr α)) = .ok [] := rfl

theorem exSeq_cons {α : Type} (e : Except SErr α) (es : List (Except SErr α)) :
    exSeq (e :: es) =
      e >>= fun x => exSeq es >>= fun xs => Except.ok (x :: xs) := rfl

/-- Eliminate `attach` from a map whose function only uses the element. -/
theorem map_attach_eq {α β : Type} (l : List α) (F : α → β) :
    (l.attach.map fun el => F el.1) = l.map F :=
  List.attach_map_val l F

/-- Eliminate `attach` from the left list of a `zipWith`. -/
theorem zipWith_attach_eq {α β γ : Type} (l : List α) (l' : List β) (F : α → β → γ) :
    List.zipWith (fun el x => F el.1 x) l.attach l' = List.zipWith F l l' := by
  induction l generalizing l' with
  | nil => simp
  | cons a l ih =>
      cases l' with
      | nil => simp
      | cons b l' =>
          simp only [List.attach_cons, List.zipWith_cons_cons, List.zipWith_map_left]
          exact congrArg _ (ih l')

/-- Reading a list of children positionally equals mapping over the
children: `get(archive, i)` for `i < n` enumerates them in order. -/
theorem range_map_getD {J γ : Type} (js : List J) (d : J) (g : J → γ) :
    (List.range js.length).map (fun i => g (js.getD i d)) = js.map g := by
  induction js with
  | nil => rfl
  | cons j js ih =>
      rw [List.length_cons, List.range_succ_eq_map, List.map_cons, List.map_map]
      have hfun : ((fun i => g ((j :: js).getD i d)) ∘ Nat.succ) = fun i => g (js.getD i d) := by
        funext i
        simp only [Function.comp_apply, Nat.succ_eq_add_one, List.getD_cons_succ]
      rw [hfun, ih]
      simp

/-- Saving each element then loading each saved child recovers the list
(sequence/set container bodies of `save_container` / `load_container`). -/
theorem exSeq_map_rt {α : Type} (S : α → Except SErr Json) (L : Json → Except SErr α)
    (xs : List α) (h : ∀ x ∈ xs, ∃ j, S x = .ok j ∧ L j = .ok x) :
    ∃ js, exSeq (xs.map S) = .ok js ∧ js.length = xs.length ∧
      exSeq (js.map L) = .ok xs := by
  induction xs with
  | nil => exact ⟨[], rfl, rfl, rfl⟩
  | cons x xs ih =>
      obtain ⟨j, hS, hL⟩ := h x (by simp)
      obtain ⟨js, hS2, hlen, hL2⟩ := ih fun y hy => h y (by simp [hy])
      refine ⟨j :: js, ?_, by simp [hlen], ?_⟩
      · simp [exSeq_cons, hS, hS2]
      · simp [exSeq_cons, hL, hL2]

/-- Extract a pointwise fact from an `all` over an attached list. -/
theorem attach_all_mem {α : Type} {l : List α} {p : α → Bool}
    (h : (l.attach.all fun el => p el.1) = true) : ∀ x ∈ l, p x = true := by
  intro x hx
  exact List.all_eq_true.1 h ⟨x, hx⟩ (List.mem_attach l ⟨x, hx⟩)

/-- Paired version of `exSeq_map_rt` for the alternating key/value lists
of `save_associative_container` / `load_associative_container`. -/
theorem exSeq_map_rt2 (Sk Sv : Val → Except SErr Json) (Lk Lv : Json → Except SErr Val)
    (ps : List (Val × Val))
    (h : ∀ p ∈ ps, (∃ jk, Sk p.1 = .ok jk ∧ Lk jk = .ok p.1) ∧
                   (∃ jv, Sv p.2 = .ok jv ∧ Lv jv = .ok p.2)) :
    ∃ qs : List (Json × Json),
      exSeq (ps.map fun p =>
        Sk p.1 >>= fun jk => Sv p.2 >>= fun jv => Except.ok (jk, jv)) = .ok qs ∧
      qs.length = ps.length ∧
      exSeq (qs.map fun q =>
        Lk q.1 >>= fun kv => Lv q.2 >>= fun vv => Except.ok (kv, vv)) = .ok ps := by
  induction ps with
  | nil => exact ⟨[], rfl, rfl, rfl⟩
  | cons p ps ih =>
      obtain ⟨⟨jk, hSk, hLk⟩, ⟨jv, hSv, hLv⟩⟩ := h p (by simp)
      obtain ⟨qs, hS2, hlen, hL2⟩ := ih fun q hq => h q (by simp [hq])
      refine ⟨(jk, jv) :: qs, ?_, by simp [hlen], ?_⟩
      · simp [exSeq_cons, hSk, hSv, hS2]
      · simp [exSeq_cons, hLk, hLv, hL2]

/-- Flattening a list of pairs doubles its length. -/
theorem flatPairs_length {J : Type} (qs : List (J × J)) :
    (qs.flatMap fun q => [q.1, q.2]).length = 2 * qs.length := by
  induction qs with
  | nil => rfl
  | cons q qs ih => simp [List.flatMap_cons, ih]; omega

/-- Positional reads at `2*i` and `2*i+1` over a flattened pair list
enumerate the pairs (the map-like load addressing). -/
theorem range_map_pairs {J γ : Type} (qs : List (J × J)) (d : J) (F : J → J → γ) :
    ((List.range qs.length).map fun i =>
      F ((qs.flatMap fun q => [q.1, q.2]).getD (2 * i) d)
        ((qs.flatMap fun q => [q.1, q.2]).getD (2 * i + 1) d))
    = qs.map fun q => F q.1 q.2 := by
  induction qs with
  | nil => rfl
  | cons q qs ih =>
      rw [List.length_cons, List.range_succ_eq_map, List.map_cons, List.map_map]
      refine congrArg₂ _ (by simp) ?_
      rw [← ih]
      refine congrArg₂ _ ?_ rfl
      funext i
      have h1 : 2 * Nat.succ i = (2 * i + 1) + 1 := by omega
      have h2 : 2 * Nat.succ i + 1 = ((2 * i + 1) + 1) + 1 := by omega
      simp only [Function.comp_apply, h1, h2, List.flatMap_cons, List.cons_append,
        List.getD_cons_succ, List.nil_append]

/-- `jGetKey` on an object whose head member has the requested key. -/
theorem jGetKey_head (k : String) (j : Json) (ms : List (String × Json)) :
    jGetKey (.obj ((k, j) :: ms)) k = j := by
  simp [jGetKey, List.find?_cons]

/-- `jGetKey` skips a head member with a different key. -/
theorem jGetKey_cons_ne (k k' : String) (j : Json) (ms : List (String × Json))
    (h : ¬ k' = k) : jGetKey (.obj ((k', j) :: ms)) k = jGetKey (.obj ms) k := by
  simp [jGetKey, List.find?_cons, h]

/-- `jGetKey` skips a whole prefix of members with different keys. -/
theorem jGetKey_append_skip (k : String) (pre ms : List (String × Json))
    (h : ∀ q ∈ pre, ¬ q.1 = k) :
    jGetKey (.obj (pre ++ ms)) k = jGetKey (.obj ms) k := by
  induction pre with
  | nil => rfl
  | cons q pre ih =>
      rw [List.cons_append,
        jGetKey_cons_ne _ _ _ _ (h q (by simp)),
        ih fun q hq => h q (by simp [hq])]

/-- Reflectable member save/load round trip: saving the descriptor
members into keyed children and looking each child up again by its
member name recovers the member values, for distinct member names and
any prefix of members (such as the `Class` entry) whose keys differ from
every member name. -/
theorem members_rt (S : (String × Ty) → Val → Except SErr Json)
    (L : (String × Ty) → Json → Except SErr Val) :
    ∀ (fs : List (String × Ty)) (vs : List Val) (pre : List (String × Json)),
    vs.length = fs.length →
    allDistinct (fs.map Prod.fst) = true →
    (∀ q ∈ pre, ∀ f ∈ fs, ¬ q.1 = f.1) →
    (∀ fx ∈ fs.zip vs, ∃ j, S fx.1 fx.2 = .ok j ∧ L fx.1 j = .ok fx.2) →
    ∃ ms, exSeq (List.zipWith (fun f x => (S f x).map fun jv => (f.1, jv)) fs vs) = .ok ms ∧
      ms.map Prod.fst = fs.map Prod.fst ∧
      exSeq (fs.map fun f => L f (jGetKey (.obj (pre ++ ms)) f.1)) = .ok vs := by
  intro fs
  induction fs with
  | nil =>
      intro vs pre hlen _ _ _
      cases vs with
      | nil => exact ⟨[], rfl, rfl, rfl⟩
      | cons x vs => simp at hlen
  | cons f fs ih =>
      intro vs pre hlen hdist hpre hrt
      cases vs with
      | nil => simp at hlen
      | cons x vs =>
          obtain ⟨j, hS, hL⟩ := hrt (f, x) (by simp [List.zip_cons_cons])
          rw [List.map_cons] at hdist
          simp only [allDistinct, Bool.and_eq_true, List.all_eq_true,
            decide_eq_true_eq] at hdist
          have hdist' : allDistinct (fs.map Prod.fst) = true := hdist.2
          have hne : ∀ g ∈ fs, ¬ f.1 = g.1 := by
            intro g hg heq
            exact hdist.1 g.1 (List.mem_map.2 ⟨g, hg, rfl⟩) heq.symm
          have hpre' : ∀ q ∈ pre ++ [(f.1, j)], ∀ g ∈ fs, ¬ q.1 = g.1 := by
            intro q hq g hg
            rcases List.mem_append.1 hq with hq | hq
            · exact hpre q hq g (by simp [hg])
            · simp at hq
              subst hq
              exact hne g hg
          obtain ⟨ms, hS2, hnames, hL2⟩ :=
            ih vs (pre ++ [(f.1, j)]) (by simpa using hlen) hdist'
              hpre' (fun fx hfx => hrt fx (by simp [List.zip_cons_cons, hfx]))
          refine ⟨(f.1, j) :: ms, ?_, by simp [hnames], ?_⟩
          · simp [List.zipWith_cons_cons, exSeq_cons, hS, hS2]
          · rw [List.map_cons, exSeq_cons]
            have hkey : jGetKey (.obj (pre ++ (f.1, j) :: ms)) f.1 = j := by
              rw [jGetKey_append_skip _ _ _ fun q hq => hpre q hq f (by simp),
                jGetKey_head]
            rw [hkey, hL]
            have hrest :
                (fs.map fun g => L g (jGetKey (.obj (pre ++ (f.1, j) :: ms)) g.1)) =
                fs.map fun g => L g (jGetKey (.obj ((pre ++ [(f.1, j)]) ++ ms)) g.1) := by
              rw [List.append_cons]
            rw [hrest, hL2]
            rfl

/-- Inversion for a successful bind. -/
theorem bind_ok_inv {α β : Type} {e : Except SErr α} {f : α → Except SErr β} {b : β}
    (h : e >>= f = .ok b) : ∃ a, e = .ok a ∧ f a = .ok b := by
  cases e with
  | ok a => exact ⟨a, rfl, h⟩
  | error err => simp at h

/-- Inversion for a successful map. -/
theorem map_ok_inv {α β : Type} {e : Except SErr α} {f : α → β} {b : β}
    (h : e.map f = .ok b) : ∃ a, e = .ok a ∧ f a = b := by
  cases e with
  | ok a =>
      refine ⟨a, rfl, ?_⟩
      simpa [Except.map] using h
  | error err => simp [Except.map] at h

/-- `zipWith` respects pointwise-equal functions. -/
theorem zipWith_ext {α β γ : Type} {f g : α → β → γ} (h : ∀ a b, f a b = g a b) :
    ∀ (l : List α) (l' : List β), List.zipWith f l l' = List.zipWith g l l' := by
  intro l
  induction l with
  | nil => intro l'; rfl
  | cons a l ih =>
      intro l'
      cases l' with
      | nil => rfl
      | cons b l' => simp only [List.zipWith_cons_cons, h, ih]

/-- Positional tuple round trip (`serializer_impl<Archiver, TupleLike>`):
saving the components in order then loading child `i` at component type
`i` recovers the tuple. -/
theorem exSeq_zip_rt (S : Ty → Val → Except SErr Json) (L : Ty → Json → Except SErr Val) :
    ∀ (ts : List Ty) (xs : List Val),
    xs.length = ts.length →
    (∀ fx ∈ ts.zip xs, ∃ j, S fx.1 fx.2 = .ok j ∧ L fx.1 j = .ok fx.2) →
    ∃ js, exSeq (List.zipWith S ts xs) = .ok js ∧ js.length = ts.length ∧
      exSeq (List.zipWith (fun t' i => L t' (js.getD i .null)) ts (List.range ts.length)) =
        .ok xs := by
  intro ts
  induction ts with
  | nil =>
      intro xs hlen _
      cases xs with
      | nil => exact ⟨[], rfl, rfl, rfl⟩
      | cons x xs => simp at hlen
  | cons t ts ih =>
      intro xs hlen hrt
      cases xs with
      | nil => simp at hlen
      | cons x xs =>
          obtain ⟨j, hS, hL⟩ := hrt (t, x) (by simp [List.zip_cons_cons])
          obtain ⟨js, hS2, hlen2, hL2⟩ := ih xs (by simpa using hlen)
            (fun fx hfx => hrt fx (by simp [List.zip_cons_cons, hfx]))
          refine ⟨j :: js, ?_, by simp [hlen2], ?_⟩
          · simp [List.zipWith_cons_cons, exSeq_cons, hS, hS2]
          · have hfe : ∀ (a : Ty) (b : Nat),
                L a ((j :: js).getD (Nat.succ b) .null) = L a (js.getD b .null) := by
              intro a b
              simp [List.getD_cons_succ]
            rw [List.length_cons, List.range_succ_eq_map, List.zipWith_cons_cons,
              List.getD_cons_zero, hL, List.zipWith_map_right,
              zipWith_ext (fun a b => hfe a b) ts (List.range ts.length),
              exSeq_cons, hL2]
            rfl

/-- Shape of a saved reflectable aggregate: `save_object` always writes
the `Class` member first, holding the object's class name. -/
theorem jsonSave_obj_shape {ρ : Reg} {fuel : Nat} {c : String} {fs : List (String × Ty)}
    {pv : Val} {j : Json} (hw : wf (.tobj c fs) pv = true)
    (hS : jsonSave ρ fuel (.tobj c fs) pv = .ok j) :
    ∃ ms, j = .obj ((CLASS_NAME, .str c) :: ms) := by
  cases pv <;> simp only [wf, Bool.false_eq_true] at hw
  case vobj dyn vs =>
    simp only [Bool.and_eq_true, decide_eq_true_eq] at hw
    obtain ⟨⟨hdyn, _⟩, _⟩ := hw
    subst hdyn
    simp only [jsonSave] at hS
    split at hS
    · obtain ⟨ms, _, h2⟩ := bind_ok_inv hS
      simp only [Except.ok.injEq] at h2
      exact ⟨ms, h2.symm⟩
    · simp at hS

/-- `pop_class_name` on an object whose first member is the `Class`
string. -/
theorem jsonPopClass_head (s : String) (ms : List (String × Json)) :
    jsonPopClass (.obj ((CLASS_NAME, .str s) :: ms)) = s := by
  simp [jsonPopClass, List.find?_cons]

/-- `isObjTy` characterization. -/
theorem isObjTy_eq {t : Ty} (h : isObjTy t = true) : ∃ c fs, t = .tobj c fs := by
  cases t <;> simp only [isObjTy, Bool.false_eq_true] at h
  case tobj c fs => exact ⟨c, fs, rfl⟩

/-- Unfolding of `wf` at an optional value. -/
theorem wf_topt (t : Ty) (o : Option Val) : wf (.topt t) (.vopt o) =
    (match o with | none => true | some x => wf t x) := by
  rw [wf.eq_def]

/-- Unfolding of `wf` at a variant value. -/
theorem wf_tvar (ts : List Ty) (tag : Nat) (x : Val) : wf (.tvar ts) (.vvar tag x) =
    (match ts.get? tag with | some t => wf t x | none => false) := by
  rw [wf.eq_def]
  split <;> split <;> simp_all
  all_goals rw [List.getElem?_eq_none (by omega)]

/-- Unfolding of `wf` at a shared handle. -/
theorem wf_tshared (t : Ty) (o : Option (String × Val)) : wf (.tshared t) (.vshared o) =
    (match o with
     | none => true
     | some (dn, pv) => dn = tyName t && wf t pv) := by
  rw [wf.eq_def]

/-- Unfolding of `wf` at a unique handle. -/
theorem wf_tuniq (t : Ty) (o : Option Val) : wf (.tuniq t) (.vuniq o) =
    (match o with | none => false | some pv => wf t pv) := by
  rw [wf.eq_def]

/-- Unfolding of `jsonSave` at a variant value. -/
theorem jsonSave_tvar (ρ : Reg) (fuel : Nat) (ts : List Ty) (tag : Nat) (x : Val) :
    jsonSave ρ fuel (.tvar ts) (.vvar tag x) =
    (match ts.get? tag with
     | some t => (jsonSave ρ fuel t x).map fun jv =>
         .obj [(INDEX_NAME, .num tag), (VALUE_NAME, jv)]
     | none => .error .mismatch) := by
  rw [jsonSave.eq_def]
  split <;> split <;> simp_all
  all_goals rw [List.getElem?_eq_none (by omega)]

/-- Unfolding of `jsonLoad` at a variant type. -/
theorem jsonLoad_tvar (ρ : Reg) (fuel : Nat) (ts : List Ty) (j : Json) :
    jsonLoad ρ fuel (.tvar ts) j =
    (jsonPopIdx j INDEX_NAME >>= fun tag =>
     serializationCheck (tag < ts.length) >>= fun _ =>
     match ts.get? tag with
     | some t => (jsonLoad ρ fuel t (jGetKey j VALUE_NAME)).map (.vvar tag)
     | none => .error .undefined) := by
  rw [jsonLoad.eq_def]
  dsimp only
  rcases hpi : jsonPopIdx j INDEX_NAME with e | tag <;> simp
  split <;> split <;> simp_all
  all_goals rw [List.getElem?_eq_none (by omega)]

/-- Unfolding of `jsonSave` at a null shared handle. -/
theorem jsonSave_tshared_none (ρ : Reg) (fuel : Nat) (t : Ty) :
    jsonSave ρ fuel (.tshared t) (.vshared none) =
      .ok (.obj [(CLASS_NAME, .str EMPTY_NAME)]) := by
  rw [jsonSave.eq_def]

/-- Unfolding of `jsonSave` at a non-null shared handle. -/
theorem jsonSave_tshared_some (ρ : Reg) (fuel : Nat) (t : Ty) (dn : String) (pv : Val) :
    jsonSave ρ fuel (.tshared t) (.vshared (some (dn, pv))) =
    (if isObjTy t then jsonSave ρ fuel t pv
     else
       match ρ dn with
       | some t2 =>
           match fuel with
           | 0 => .error .undefined
           | m + 1 => jsonSave ρ m t2 pv
       | none => .ok (.obj [(CLASS_NAME, .str dn)])) := by
  rw [jsonSave.eq_def]

/-- Unfolding of `jsonLoad` at a shared-handle type. -/
theorem jsonLoad_tshared (ρ : Reg) (fuel : Nat) (t : Ty) (j : Json) :
    jsonLoad ρ fuel (.tshared t) j =
    (if jsonPopClass j = EMPTY_NAME then .ok (.vshared none)
     else
       match ρ (jsonPopClass j) with
       | some t2 =>
           match fuel with
           | 0 => .error .undefined
           | m + 1 => (jsonLoad ρ m t2 j).map fun v => .vshared (some (tyName t2, v))
       | none =>
           if isObjTy t then (jsonLoad ρ fuel t j).map fun v => .vshared (some (tyName t, v))
           else .ok (.vshared none)) := by
  rw [jsonLoad.eq_def]

/-- Unfolding of `jsonSave` at an optional value. -/
theorem jsonSave_topt (ρ : Reg) (fuel : Nat) (t : Ty) (o : Option Val) :
    jsonSave ρ fuel (.topt t) (.vopt o) =
    (match o with
     | none => .ok (.arr [.jb false])
     | some x => (jsonSave ρ fuel t x).map fun jv => .arr [.jb true, jv]) := by
  rw [jsonSave.eq_def]

/-- Unfolding of `jsonSave` at a unique handle. -/
theorem jsonSave_tuniq (ρ : Reg) (fuel : Nat) (t : Ty) (o : Option Val) :
    jsonSave ρ fuel (.tuniq t) (.vuniq o) =
    (match o with
     | none => .error .undefined
     | some pv => jsonSave ρ fuel t pv) := by
  rw [jsonSave.eq_def]

/-- Unfolding of `jsonLoad` at a unique-handle type. -/
theorem jsonLoad_tuniq (ρ : Reg) (fuel : Nat) (t : Ty) (j : Json) :
    jsonLoad ρ fuel (.tuniq t) j =
      (jsonLoad ρ fuel t j).map fun v => .vuniq (some v) := by
  rw [jsonLoad.eq_def]

/-- Universal JSON round trip for the supported universe: for every
admissible static type and well-typed value, `save` succeeds and `load`
of the saved tree returns the original value (structural equality; list
order preserved). -/
theorem jsonRT (fuel : Nat) : ∀ (t : Ty) (v : Val), goodTy t = true → wf t v = true →
    ∃ j, jsonSave emptyReg fuel t v = .ok j ∧ jsonLoad emptyReg fuel t j = .ok v
  | .tbool, v, hg, hw => by
      cases v <;> simp only [wf, Bool.false_eq_true] at hw
      case vb b => exact ⟨.jb b, by simp [jsonSave], by simp [jsonLoad, jsonPopBool]⟩
  | .tint, v, hg, hw => by
      cases v <;> simp only [wf, Bool.false_eq_true] at hw
      case vi n => exact ⟨.num n, by simp [jsonSave], by simp [jsonLoad, jsonPopInt]⟩
  | .tstr, v, hg, hw => by
      cases v <;> simp only [wf, Bool.false_eq_true] at hw
      case vs s => exact ⟨.str s, by simp [jsonSave], by simp [jsonLoad, jsonPopStr]⟩
  | .tunit, v, hg, hw => by
      cases v <;> simp only [wf, Bool.false_eq_true] at hw
      case vunit => exact ⟨.null, by simp [jsonSave], by simp [jsonLoad]⟩
  | .tvec t, v, hg, hw => by
      cases v <;> simp only [wf, Bool.false_eq_true] at hw
      case vvec xs =>
        simp only [goodTy] at hg
        obtain ⟨js, hS, hlen, hL⟩ := exSeq_map_rt (jsonSave emptyReg fuel t)
          (jsonLoad emptyReg fuel t) xs
          (fun x hx => jsonRT fuel t x hg (attach_all_mem hw x hx))
        refine ⟨.arr js, by simp [jsonSave, hS], ?_⟩
        simp only [jsonLoad, jsonSize, jGetIdx]
        rw [range_map_getD js Json.null (jsonLoad emptyReg fuel t), hL]
        rfl
  | .tset t, v, hg, hw => by
      cases v <;> simp only [wf, Bool.false_eq_true] at hw
      case vset xs =>
        simp only [goodTy] at hg
        obtain ⟨js, hS, hlen, hL⟩ := exSeq_map_rt (jsonSave emptyReg fuel t)
          (jsonLoad emptyReg fuel t) xs
          (fun x hx => jsonRT fuel t x hg (attach_all_mem hw x hx))
        refine ⟨.arr js, by simp [jsonSave, hS], ?_⟩
        simp only [jsonLoad, jsonSize, jGetIdx]
        rw [range_map_getD js Json.null (jsonLoad emptyReg fuel t), hL]
        rfl
  | .tmap k v2, v, hg, hw => by
      cases v <;> simp only [wf, Bool.false_eq_true] at hw
      case vmap ps =>
        simp only [goodTy, Bool.and_eq_true] at hg
        have hrt : ∀ p ∈ ps,
            (∃ jk, jsonSave emptyReg fuel k p.1 = .ok jk ∧
              jsonLoad emptyReg fuel k jk = .ok p.1) ∧
            (∃ jv, jsonSave emptyReg fuel v2 p.2 = .ok jv ∧
              jsonLoad emptyReg fuel v2 jv = .ok p.2) := by
          intro p hp
          have hp2 := attach_all_mem (p := fun q => wf k q.1 && wf v2 q.2) hw p hp
          simp only [Bool.and_eq_true] at hp2
          exact ⟨jsonRT fuel k p.1 hg.1 hp2.1, jsonRT fuel v2 p.2 hg.2 hp2.2⟩
        obtain ⟨qs, hS, hlen, hL⟩ := exSeq_map_rt2 (jsonSave emptyReg fuel k)
          (jsonSave emptyReg fuel v2) (jsonLoad emptyReg fuel k)
          (jsonLoad emptyReg fuel v2) ps hrt
        refine ⟨.arr (qs.flatMap fun q => [q.1, q.2]), ?_, ?_⟩
        · simp only [jsonSave]
          rw [hS]
          rfl
        · simp only [jsonLoad, jsonSize, jGetIdx, serializationCheck_bind]
          rw [flatPairs_length]
          have hdiv : 2 * qs.length / 2 = qs.length := by omega
          rw [hdiv, range_map_pairs qs Json.null
            (fun a b => jsonLoad emptyReg fuel k a >>= fun kv =>
              jsonLoad emptyReg fuel v2 b >>= fun vv => Except.ok (kv, vv)), hL]
          rfl
  | .tarr t n, v, hg, hw => by
      cases v <;> simp only [wf, Bool.false_eq_true] at hw
      case varr xs =>
        simp only [goodTy] at hg
        simp only [Bool.and_eq_true, decide_eq_true_eq] at hw
        obtain ⟨hxn, hall⟩ := hw
        obtain ⟨js, hS, hlen, hL⟩ := exSeq_map_rt (jsonSave emptyReg fuel t)
          (jsonLoad emptyReg fuel t) xs
          (fun x hx => jsonRT fuel t x hg (attach_all_mem hall x hx))
        refine ⟨.arr js, by simp [jsonSave, hS], ?_⟩
        simp only [jsonLoad, jGetIdx, serializationCheck_bind]
        have hn : n = js.length := by omega
        subst hn
        rw [range_map_getD js Json.null (jsonLoad emptyReg fuel t), hL]
        rfl
  | .tpair a b, v, hg, hw => by
      cases v <;> simp only [wf, Bool.false_eq_true] at hw
      case vpair x y =>
        simp only [goodTy, Bool.and_eq_true] at hg
        simp only [Bool.and_eq_true] at hw
        obtain ⟨ja, hSa, hLa⟩ := jsonRT fuel a x hg.1 hw.1
        obtain ⟨jbv, hSb, hLb⟩ := jsonRT fuel b y hg.2 hw.2
        refine ⟨.arr [ja, jbv], by simp [jsonSave, hSa, hSb], ?_⟩
        simp only [jsonLoad, jGetIdx]
        rw [show ([ja, jbv].getD 0 .null) = ja from rfl,
          show ([ja, jbv].getD 1 .null) = jbv from rfl, hLa, hLb]
        rfl
  | .ttup ts, v, hg, hw => by
      cases v <;> simp only [wf, Bool.false_eq_true] at hw
      case vtup xs =>
        simp only [Bool.and_eq_true, decide_eq_true_eq] at hw
        obtain ⟨hlen, hall⟩ := hw
        simp only [goodTy] at hg
        obtain ⟨js, hS, hlen2, hL⟩ := exSeq_zip_rt (jsonSave emptyReg fuel)
          (jsonLoad emptyReg fuel) ts xs hlen
          (fun fx hfx =>
            have h2 : sizeOf fx.1 < sizeOf ts :=
              List.sizeOf_lt_of_mem (List.of_mem_zip hfx).1
            jsonRT fuel fx.1 fx.2
              (attach_all_mem hg fx.1 (List.of_mem_zip hfx).1)
              (attach_all_mem (p := fun fx => wf fx.1 fx.2) hall fx hfx))
        refine ⟨.arr js, ?_, ?_⟩
        · simp only [jsonSave, hlen, if_true]
          rw [zipWith_attach_eq ts xs (jsonSave emptyReg fuel), hS]
          rfl
        · simp only [jsonLoad, jGetIdx, serializationCheck_bind]
          rw [zipWith_attach_eq ts (List.range ts.length)
            (fun t2 i => jsonLoad emptyReg fuel t2 (js.getD i .null)), hL]
          rfl
  | .topt t, v, hg, hw => by
      cases v <;> try simp only [wf, Bool.false_eq_true] at hw
      case vopt o =>
        simp only [goodTy] at hg
        rw [wf_topt] at hw
        cases o with
        | none =>
            refine ⟨.arr [.jb false], by rw [jsonSave_topt], ?_⟩
            simp [jsonLoad, jGetIdx, jsonPopBool]
        | some x =>
            have hw2 : wf t x = true := hw
            obtain ⟨jv, hS, hL⟩ := jsonRT fuel t x hg hw2
            refine ⟨.arr [.jb true, jv], by rw [jsonSave_topt]; simp [hS], ?_⟩
            simp only [jsonLoad, jGetIdx, serializationCheck_bind]
            rw [show ([Json.jb true, jv].getD 0 .null) = .jb true from rfl]
            simp only [jsonPopBool, exOk_bind, if_true]
            rw [show ([Json.jb true, jv].getD 1 .null) = jv from rfl, hL]
            rfl
  | .tvar ts, v, hg, hw => by
      cases v <;> try simp only [wf, Bool.false_eq_true] at hw
      case vvar tag x =>
        split at hw
        case _ t hget =>
          simp only [goodTy, Bool.and_eq_true] at hg
          have hsz : sizeOf t < sizeOf ts :=
            List.sizeOf_lt_of_mem (List.get?_mem hget)
          obtain ⟨jv, hS, hL⟩ := jsonRT fuel t x
            (attach_all_mem hg.2 t (List.get?_mem hget)) hw
          refine ⟨.obj [(INDEX_NAME, .num tag), (VALUE_NAME, jv)], ?_, ?_⟩
          · rw [jsonSave_tvar, hget]
            simp [hS]
          · rw [jsonLoad_tvar]
            simp only [jsonPopIdx, jGetKey_head, Int.toNat_natCast, exOk_bind,
              serializationCheck_bind, hget]
            rw [jGetKey_cons_ne _ _ _ _ (by decide), jGetKey_head, hL]
            rfl
        case _ hnone =>
          simp at hw
  | .tobj c fs, v, hg, hw => by
      cases v <;> simp only [wf, Bool.false_eq_true] at hw
      case vobj dyn vs =>
        simp only [Bool.and_eq_true, decide_eq_true_eq] at hw
        obtain ⟨⟨hdyn, hlen⟩, hall⟩ := hw
        subst hdyn
        simp only [goodTy, Bool.and_eq_true, Bool.not_eq_true',
          decide_eq_false_iff_not] at hg
        obtain ⟨⟨⟨⟨hc1, hc2⟩, hfs⟩, hdist⟩, hflds⟩ := hg
        have hfmem : ∀ f ∈ fs, ¬(f.1 = "") ∧ ¬(f.1 = CLASS_NAME) ∧ goodTy f.2 = true := by
          intro f hf
          have h3 := attach_all_mem
            (p := fun f => !(f.1 = "") && !(f.1 = CLASS_NAME) && goodTy f.2) hflds f hf
          simp only [Bool.and_eq_true, Bool.not_eq_true',
            decide_eq_false_iff_not] at h3
          exact ⟨h3.1.1, h3.1.2, h3.2⟩
        obtain ⟨ms, hS, hnames, hL⟩ := members_rt
          (fun f x => jsonSave emptyReg fuel f.2 x)
          (fun f j => jsonLoad emptyReg fuel f.2 j) fs vs [(CLASS_NAME, .str dyn)]
          hlen.symm hdist
          (fun q hq f hf => by
            simp only [List.mem_singleton] at hq
            subst hq
            exact fun he => (hfmem f hf).2.1 he.symm)
          (fun fx hfx =>
            have h2 : sizeOf fx.1 < sizeOf fs :=
              List.sizeOf_lt_of_mem (List.of_mem_zip hfx).1
            have h3 : sizeOf fx.1.2 < sizeOf fx.1 := by
              obtain ⟨⟨nm, ft⟩, fv⟩ := fx
              show sizeOf ft < sizeOf (nm, ft)
              simp only [Prod.mk.sizeOf_spec]
              omega
            jsonRT fuel fx.1.2 fx.2
              ((hfmem fx.1 (List.of_mem_zip hfx).1)).2.2
              (attach_all_mem (p := fun fx => wf fx.1.2 fx.2) hall fx hfx))
        refine ⟨.obj ((CLASS_NAME, .str dyn) :: ms), ?_, ?_⟩
        · simp only [jsonSave, hlen, le_refl, if_true]
          rw [zipWith_attach_eq fs vs
            (fun f x => (jsonSave emptyReg fuel f.2 x).map fun jv => (f.1, jv)), hS]
          rfl
        · simp only [jsonLoad]
          rw [if_neg (by simp [hfs]), jsonPopClass_head]
          simp only [serializationCheck_bind]
          rw [if_neg hc2]
          rw [map_attach_eq fs
            (fun f => jsonLoad emptyReg fuel f.2
              (jGetKey (.obj ((CLASS_NAME, .str dyn) :: ms)) f.1))]
          rw [show ((CLASS_NAME, Json.str dyn) :: ms) =
            ([(CLASS_NAME, Json.str dyn)] ++ ms) from rfl, hL]
          rfl
  | .tshared t, v, hg, hw => by
      cases v <;> try simp only [wf, Bool.false_eq_true] at hw
      case vshared o =>
        simp only [goodTy, Bool.and_eq_true] at hg
        obtain ⟨hobj, hgt⟩ := hg
        rw [wf_tshared] at hw
        cases o with
        | none =>
            refine ⟨.obj [(CLASS_NAME, .str EMPTY_NAME)],
              by rw [jsonSave_tshared_none], ?_⟩
            rw [jsonLoad_tshared, jsonPopClass_head, if_pos rfl]
        | some p =>
            obtain ⟨dn, pv⟩ := p
            have hw2 : (decide (dn = tyName t) && wf t pv) = true := hw
            simp only [Bool.and_eq_true, decide_eq_true_eq] at hw2
            obtain ⟨hdn, hpv⟩ := hw2
            obtain ⟨c, fs, rfl⟩ := isObjTy_eq hobj
            simp only [tyName] at hdn
            subst hdn
            have hc2 : ¬(dn = EMPTY_NAME) := by
              simp only [goodTy, Bool.and_eq_true, Bool.not_eq_true',
                decide_eq_false_iff_not] at hgt
              exact hgt.1.1.1.2
            obtain ⟨j, hS, hL⟩ := jsonRT fuel (.tobj dn fs) pv hgt hpv
            obtain ⟨ms, hj⟩ := jsonSave_obj_shape hpv hS
            subst hj
            refine ⟨.obj ((CLASS_NAME, .str dn) :: ms), ?_, ?_⟩
            · rw [jsonSave_tshared_some, if_pos (by simp [isObjTy])]
              exact hS
            · rw [jsonLoad_tshared, jsonPopClass_head, if_neg hc2]
              simp only [emptyReg]
              rw [if_pos (by simp [isObjTy]), hL]
              simp [tyName]
  | .tuniq t, v, hg, hw => by
      cases v <;> try simp only [wf, Bool.false_eq_true] at hw
      case vuniq o =>
        rw [wf_tuniq] at hw
        cases o with
        | none => simp at hw
        | some pv =>
            have hw2 : wf t pv = true := hw
            simp only [goodTy] at hg
            obtain ⟨j, hS, hL⟩ := jsonRT fuel t pv hg hw2
            exact ⟨j, by rw [jsonSave_tuniq]; exact hS,
              by rw [jsonLoad_tuniq, hL]; rfl⟩
termination_by t v hg hw => sizeOf t
decreasing_by
  all_goals simp_wf
  all_goals try omega
  all_goals (subst_vars; simp only [tyName, Ty.tobj.sizeOf_spec]; omega)

/-!
## XML and byte-stream class-name channels (null-shared sentinel)
-/

/-- `archiver_wrapper<pugi::xml_node>::push_class_name`
(`serialization.h` lines 690-693):
`archive.append_attribute("class").set_value(name)` — pugixml appends a
new attribute at the end of the node's attribute list.  An XML node's
attributes are modelled as an ordered (name, value) list. -/
def xmlPushClassName (attrs : List (String × String)) (name : String) :
    List (String × String) :=
  attrs ++ [("class", name)]

/-- `archiver_wrapper<pugi::xml_node>::pop_class_name`
(`serialization.h` lines 698-707): the first attribute named `class`,
or the empty string (with a logged warning) when there is none. -/
def xmlPopClassName (attrs : List (String × String)) : String :=
  match attrs.find? (fun a => a.1 = "class") with
  | some a => a.2
  | none => ""

/-- Modelled from the spec: the byte stream
(`util/multi_process_stream.h` is not among the sources) is strictly
positional; writes append at the back, reads consume from the front.
At token granularity a write is one of the typed insertions the
wrappers perform (length-prefixed string, fixed-width `unsigned int`
and `int`, single-byte bool, single marker byte). -/
inductive BinTok : Type where
  | bstr (s : String)
  | bu32 (n : Nat)
  | bbool (b : Bool)
  | bint (n : Int)
  | bu8 (n : Nat)
deriving DecidableEq

/-- `archiver_wrapper<multi_process_stream>::push_class_name`
(`serialization.h` lines 904-908): `archive << name`. -/
def binPushClassName (stream : List BinTok) (name : String) : List BinTok :=
  stream ++ [.bstr name]

/-- `archiver_wrapper<multi_process_stream>::pop_class_name`
(`serialization.h` lines 913-918): `archive >> ret` for a
`std::string`.  Reading when the front of the stream is not a
length-prefixed string is the external container's failure mode,
modelled as `none`. -/
def binPopClassName : List BinTok → Option (String × List BinTok)
  | .bstr s :: rest => some (s, rest)
  | _ => none

/-!
## Derived reflection descriptors (C7)
-/

/-- `REFLECTION_META_DATA_DERIVED_IMPL(DerivedClass, ParentClass, ...)`
(`common/serialization_macros.h` lines 380-385): the derived class's
`properties()` is
`std::tuple_cat(ParentClass::properties(), std::make_tuple(<own>))`.
Descriptor entries are (member name, member type) pairs as in `tobj`. -/
def reflectionMetaDataDerived (parentProps ownProps : List (String × Ty)) :
    List (String × Ty) :=
  parentProps ++ ownProps

/-!
## Object save/load event traces (C8)
-/

/-- Observable actions of `serializer_impl::save_object` and
`load_object` (`serialization_impl.h` lines 369-444). -/
inductive ObjEvent : Type where
  | pushClassName (s : String)
  | saveMember (name : String)
  | popClassName (s : String)
  | loadMember (name : String)
  | callInit
deriving DecidableEq

/-- Event trace of `save_object(archive, obj)` (`serialization_impl.h`
lines 369-401): a null object pushes the empty sentinel and returns;
otherwise the dynamic class name is pushed and every descriptor member
is saved in descriptor order.  `obj` is abstracted to its dynamic class
name (`none` for a null pointer).  No branch of `save_object` calls
`access::serializer::initialize`. -/
def save_object_trace : Option String → List String → List ObjEvent
  | none, _ => [.pushClassName EMPTY_NAME]
  | some dyn, props => .pushClassName dyn :: props.map .saveMember

/-- Event trace of `load_object(archive, obj)` (`serialization_impl.h`
lines 406-443) when the archive's stored class name reads as `cn`: with
an empty descriptor the body is compiled out; otherwise the class name
is popped and, unless it equals the empty sentinel, every descriptor
member is loaded in order and then `access::serializer::initialize(obj)`
is invoked — once, after the member loop. -/
def load_object_trace (cn : String) (props : List String) : List ObjEvent :=
  if props.length = 0 then []
  else if cn = EMPTY_NAME then [.popClassName cn]
  else .popClassName cn :: (props.map .loadMember ++ [.callInit])

/-!
## Byte-stream variant tag width (C9)
-/

/-- Modelled from the spec: the byte-stream container
(`util/multi_process_stream.h` is not among the sources) writes
primitives "by their length-prefixed or fixed-width encoding" (spec
section 6); an `unsigned int` occupies its fixed 4-byte width.  Byte
order is chosen little-endian — only the width matters below. -/
def uintBytes (n : Nat) : List Nat :=
  [n % 256, n / 256 % 256, n / 65536 % 256, n / 16777216 % 256]

/-- Modelled from the spec: the matching fixed-width read of an
`unsigned int` back from its four bytes. -/
def uintOfBytes : List Nat → Nat
  | [b0, b1, b2, b3] => b0 + 256 * b1 + 65536 * b2 + 16777216 * b3
  | _ => 0

/-- `archiver_wrapper<multi_process_stream>::push_index`
(`serialization.h` lines 923-931): the `idx` parameter has type
`unsigned int` and `archive << idx` writes it at that width. -/
def binPushIndexBytes (idx : Nat) : List Nat := uintBytes idx

/-- The variant save path (`serialization_impl.h` lines 561-581):
`const auto index = static_cast<unsigned char>(variant_index)` truncates
the tag value to 8 bits, then `push_index(archive, INDEX_NAME, index)`
widens it back to `unsigned int` for the stream write. -/
def variantTagBytes (variantIndex : Nat) : List Nat :=
  binPushIndexBytes (variantIndex % 256)

/-- `static_assert(sizeof...(Types) <= 255, "Variant can contain at
most 255 types")` in both the save and the load path of the variant
specialization. -/
def variantArityOk (arity : Nat) : Bool := arity ≤ 255

/-!
## The `const char*` primitive (C10)
-/

/-- The `BaseSerializable` primitive kinds whose push/pop overload
branches are distinguished here. -/
inductive PrimT : Type where
  | pbool
  | pint
  | pstring
  | pcstr
deriving DecidableEq

/-- `archiver_wrapper<json>::push` at `T = const char*`
(`serialization.h` lines 371-383): a null pointer stores JSON null
(`archive = nullptr`), otherwise the pointed-to characters as a JSON
string (`archive = std::string{obj}`). -/
def jsonPushCStr : Option String → Json
  | none => .null
  | some s => .str s

/-- Whether `archiver_wrapper<json>::push` compiles at the given
primitive kind: every kind listed has a push branch — `const char*`
included. -/
def jsonPushAccepts : PrimT → Bool
  | _ => true

/-- Whether `archiver_wrapper<json>::pop` compiles at the given
primitive kind: the `const char*` branch is
`static_assert(always_false<T>::value, "Cannot deserialize const char*
- use std::string instead")` (`serialization.h` lines 415-422), so any
instantiation of load at `const char*` is rejected at compile time. -/
def jsonPopAccepts : PrimT → Bool
  | .pcstr => false
  | _ => true

/-- The same `static_assert` in `archiver_wrapper<pugi::xml_node>::pop`
(`serialization.h` lines 635-639). -/
def xmlPopAccepts : PrimT → Bool
  | .pcstr => false
  | _ => true

/-!
## Deep nesting (C5)
-/

/-- `std::optional` nested `n` levels around `int`. -/
def deepTy : Nat → Ty
  | 0 => .tint
  | n + 1 => .topt (deepTy n)

/-- The fully engaged value of `deepTy n`. -/
def deepVal : Nat → Val
  | 0 => .vi 7
  | n + 1 => .vopt (some (deepVal n))

/-- Saving the depth-`n` value succeeds and re-loading returns it, for
every `n`: neither traversal consults `detail::serialization_context`
(the struct is defined at `serialization_impl.h` lines 94-124 and never
instantiated), so no depth is tracked and no depth bound exists. -/
theorem deepRT_ok (n : Nat) :
    ∃ j, jsonSave emptyReg 0 (deepTy n) (deepVal n) = .ok j ∧
         jsonLoad emptyReg 0 (deepTy n) j = .ok (deepVal n) := by
  induction n with
  | zero =>
      refine ⟨.num 7, ?_, ?_⟩
      · simp [deepTy, deepVal, jsonSave]
      · simp [deepTy, deepVal, jsonLoad, jsonPopInt]
  | succ n ih =>
      obtain ⟨j, hs, hl⟩ := ih
      refine ⟨.arr [.jb true, j], ?_, ?_⟩
      · rw [show deepTy (n + 1) = .topt (deepTy n) from rfl,
            show deepVal (n + 1) = .vopt (some (deepVal n)) from rfl,
            jsonSave_topt]
        simp [hs]
      · rw [show deepTy (n + 1) = .topt (deepTy n) from rfl,
            show deepVal (n + 1) = .vopt (some (deepVal n)) from rfl]
        simp [jsonLoad, jsonSize, jGetIdx, jsonPopBool, hl]

/-!
## Concrete base/derived pair (C2)
-/

/-- A reflectable base with one member, as a test fixture
(`struct base { int x; SERIALIZATION_MACRO(base, x) }`). -/
def tBase : Ty := .tobj "base" [("x", .tint)]

/-- A derived type adding one member
(`struct derived : base { int n; SERIALIZATION_MACRO_DERIVED(derived,
base, n) }`): its descriptor is the parent's entries followed by its
own. -/
def tDerived : Ty := .tobj "derived" (reflectionMetaDataDerived
  [("x", .tint)] [("n", .tint)])

/-- A registry with `derived` registered
(`register_serializer_impl<Archiver, derived>`). -/
def regBD : Reg := fun s => if s = "derived" then some tDerived else none

/-- A `derived` value `{x = 3, n = 7}`. -/
def vDer : Val := .vobj "derived" [.vi 3, .vi 7]


/-!
## Byte-stream backing: full traversal

`serialization::save` / `load` instantiated at
`Archiver = multi_process_stream`.  Every `get` overload of the binary
wrapper returns the stream itself, so traversal is strictly positional:
`resize` writes an `unsigned int` count, `size` reads one, `push_index`
writes an `unsigned int`, `push_class_name` writes a string,
the primitive `push`/`pop` write/read one value at its width
(`std::monostate` writes and reads one marker byte).  Writes append at
the back of the stream; reads consume from the front.  The stream
itself is modelled from the spec at token granularity (`BinTok`); a
read that finds a token of the wrong kind at the front is a
backing-level decode failure.
-/

/-- Every `Ty` has positive size (each constructor counts itself). -/
theorem ty_sizeOf_pos (t : Ty) : 0 < sizeOf t := by
  cases t <;> simp_arith

/-- `serialization::save` at `Archiver = multi_process_stream`: the
tokens appended to the stream, in write order.  Structure mirrors
`jsonSave` (same dispatch of `serializer_impl`); only the wrapper
operations differ. -/
def binSave (ρ : Reg) (fuel : Nat) : Ty → Val → Except SErr (List BinTok)
  | .tbool, .vb b => .ok [.bbool b]
  | .tint, .vi n => .ok [.bint n]
  | .tstr, .vs s => .ok [.bstr s]
  | .tunit, .vunit => .ok [.bu8 0]
  | .tvec t, .vvec xs =>
      (exSeq (xs.map fun x => binSave ρ fuel t x)).map fun outs =>
        .bu32 xs.length :: outs.flatten
  | .tset t, .vset xs =>
      (exSeq (xs.map fun x => binSave ρ fuel t x)).map fun outs =>
        .bu32 xs.length :: outs.flatten
  | .tmap k v, .vmap ps => do
      let qs ← exSeq (ps.map fun p => do
        let ok ← binSave ρ fuel k p.1
        let ov ← binSave ρ fuel v p.2
        Except.ok (ok ++ ov))
      .ok (.bu32 (2 * ps.length) :: qs.flatten)
  | .tarr t n, .varr xs =>
      -- resize writes the static Size; the loop reads array[i] for i < Size
      if xs.length = n then
        (exSeq (xs.map fun x => binSave ρ fuel t x)).map fun outs =>
          .bu32 n :: outs.flatten
      else .error .mismatch
  | .tpair a b, .vpair x y => do
      let oa ← binSave ρ fuel a x
      let ob ← binSave ρ fuel b y
      .ok (oa ++ ob)
  | .ttup ts, .vtup xs =>
      if xs.length = ts.length then
        (exSeq (List.zipWith (fun el x => binSave ρ fuel el.1 x) ts.attach xs)).map
          fun outs => .bu32 ts.length :: outs.flatten
      else .error .mismatch
  | .topt t, .vopt o =>
      match o with
      | none => .ok [.bu32 2, .bbool false]
      | some x => (binSave ρ fuel t x).map fun out => .bu32 2 :: .bbool true :: out
  | .tvar ts, .vvar tag x =>
      match h : ts.get? tag with
      | some t =>
          -- index = static_cast<unsigned char>(variant_index); push_index
          -- widens it to unsigned int (see `variantTagBytes`)
          (binSave ρ fuel t x).map fun out => .bu32 (tag % 256) :: out
      | none => .error .mismatch
  | .tobj _ fs, .vobj dyn vs =>
      if fs.length ≤ vs.length then do
        let outs ← exSeq (List.zipWith
          (fun el x => binSave ρ fuel el.1.2 x)
          fs.attach vs)
        .ok (.bstr dyn :: outs.flatten)
      else .error .mismatch
  | .tshared t, .vshared o =>
      match o with
      | none => .ok [.bstr EMPTY_NAME]
      | some (dn, pv) =>
          if isObjTy t then
            -- push_class_name(dyn), then save the pointee by value at the
            -- static element type; save_object pushes the class name again,
            -- so the stream holds it twice
            (binSave ρ fuel t pv).map fun out => .bstr dn :: out
          else
            match ρ dn with
            | some t' =>
                match fuel with
                | 0 => .error .undefined
                | m + 1 => (binSave ρ m t' pv).map fun out => .bstr dn :: out
            | none => .ok [.bstr dn]
  | .tuniq t, .vuniq o =>
      match o with
      | none => .error .undefined
        -- null unique_ptr: the NullPointer check is a disabled no-op and
        -- `*object` dereferences null
      | some pv => binSave ρ fuel t pv
  | _, _ => .error .mismatch
termination_by t v => (fuel, sizeOf t)
decreasing_by
  all_goals simp_wf
  all_goals try (apply Prod.Lex.left; omega)
  all_goals apply Prod.Lex.right
  all_goals try omega
  all_goals try (have h2 := List.sizeOf_lt_of_mem el.2; omega)
  all_goals try (have h2 := List.sizeOf_lt_of_mem (List.get?_mem h); omega)
  all_goals
    (obtain ⟨⟨a, b⟩, hm⟩ := el
     have h2 := List.sizeOf_lt_of_mem hm
     simp at h2 ⊢
     omega)


mutual

/-- `serialization::load` at `Archiver = multi_process_stream`:
consumes tokens from the front of the stream and returns the loaded
value with the remaining stream.  All `SERIALIZATION_CHECK` sites are
the no-op `serializationCheck`.  The shared-handle reflectable fallback
*appends* the popped class name at the back of the stream
(`push_class_name` writes at the write end) before re-loading, so a
load can leave extra tokens behind the unread remainder.  `fuel`
bounds registry dispatches as in `jsonLoad`. -/
def binLoad (ρ : Reg) (fuel : Nat) : Ty → List BinTok → Except SErr (Val × List BinTok)
  | .tbool, s =>
      match s with
      | .bbool b :: r => .ok (.vb b, r)
      | _ => .error .decode
  | .tint, s =>
      match s with
      | .bint n :: r => .ok (.vi n, r)
      | _ => .error .decode
  | .tstr, s =>
      match s with
      | .bstr str :: r => .ok (.vs str, r)
      | _ => .error .decode
  | .tunit, s =>
      match s with
      | .bu8 _ :: r => .ok (.vunit, r)
      | _ => .error .decode
  | .tvec t, s =>
      match s with
      | .bu32 n :: r => (binLoadList ρ fuel t n r).map fun q => (.vvec q.1, q.2)
      | _ => .error .decode
  | .tset t, s =>
      match s with
      | .bu32 n :: r => (binLoadList ρ fuel t n r).map fun q => (.vset q.1, q.2)
      | _ => .error .decode
  | .tmap k v, s =>
      match s with
      | .bu32 n :: r => do
          serializationCheck (n % 2 = 0)
          (binLoadPairs ρ fuel k v (n / 2) r).map fun q => (.vmap q.1, q.2)
      | _ => .error .decode
  | .tarr t n, s =>
      match s with
      | .bu32 m :: r => do
          serializationCheck (m = n)
          (binLoadList ρ fuel t n r).map fun q => (.varr q.1, q.2)
      | _ => .error .decode
  | .tpair a b, s => do
      let qa ← binLoad ρ fuel a s
      let qb ← binLoad ρ fuel b qa.2
      .ok (.vpair qa.1 qb.1, qb.2)
  | .ttup ts, s =>
      match s with
      | .bu32 m :: r => do
          serializationCheck (m = ts.length)
          (binLoadTypes ρ fuel ts r).map fun q => (.vtup q.1, q.2)
      | _ => .error .decode
  | .topt t, s =>
      match s with
      | .bu32 _ :: .bbool b :: r =>
          if b then (binLoad ρ fuel t r).map fun q => (.vopt (some q.1), q.2)
          else .ok (.vopt none, r)
      | _ => .error .decode
  | .tvar ts, s =>
      match s with
      | .bu32 tag :: r => do
          serializationCheck (tag < ts.length)
          match h : ts.get? tag with
          | some t => (binLoad ρ fuel t r).map fun q => (.vvar tag q.1, q.2)
          | none => .error .undefined
            -- disabled InvalidIndex check; loaders[index] reads out of bounds
      | _ => .error .decode
  | .tobj c fs, s =>
      if fs.isEmpty then .ok (.vobj c [], s)
      else
        match s with
        | .bstr cn :: r =>
            if cn = EMPTY_NAME then
              .ok (.vobj c (fs.attach.map fun el => defaultVal el.1.2), r)
            else
              (binLoadFields ρ fuel fs r).map fun q => (.vobj c q.1, q.2)
        | _ => .error .decode
  | .tshared t, s =>
      match s with
      | .bstr cn :: r =>
          if cn = EMPTY_NAME then .ok (.vshared none, r)
          else
            match ρ cn with
            | some t' =>
                match fuel with
                | 0 => .error .undefined
                | m + 1 =>
                    (binLoad ρ m t' r).map fun q =>
                      (.vshared (some (tyName t', q.1)), q.2)
            | none =>
                if isObjTy t then
                  -- push the class name back: it lands at the END of the
                  -- stream; load_object pops the second saved copy from
                  -- the front
                  (binLoad ρ fuel t (r ++ [.bstr cn])).map fun q =>
                    (.vshared (some (tyName t, q.1)), q.2)
                else
                  .ok (.vshared none, r)
      | _ => .error .decode
  | .tuniq t, s => (binLoad ρ fuel t s).map fun q => (.vuniq (some q.1), q.2)
termination_by t s => (fuel, sizeOf t, 0, 0)
decreasing_by
  all_goals simp_wf
  all_goals try (apply Prod.Lex.left; omega)
  all_goals apply Prod.Lex.right
  all_goals try (apply Prod.Lex.left; omega)
  all_goals try (apply Prod.Lex.left; have h2 := List.sizeOf_lt_of_mem (List.get?_mem h); omega)
  all_goals try (apply Prod.Lex.left; have hk := ty_sizeOf_pos k; have hv := ty_sizeOf_pos v; omega)
  all_goals apply Prod.Lex.right
  all_goals first
  | (apply Prod.Lex.left; omega)
  | (apply Prod.Lex.right; omega)

/-- `load_container`'s element loop: `n` sequential element loads. -/
def binLoadList (ρ : Reg) (fuel : Nat) (t : Ty) :
    Nat → List BinTok → Except SErr (List Val × List BinTok)
  | 0, s => .ok ([], s)
  | n + 1, s => do
      let q ← binLoad ρ fuel t s
      let qs ← binLoadList ρ fuel t n q.2
      .ok (q.1 :: qs.1, qs.2)
termination_by n s => (fuel, sizeOf t, 1, n)
decreasing_by
  all_goals simp_wf
  all_goals try (apply Prod.Lex.left; omega)
  all_goals apply Prod.Lex.right
  all_goals try (apply Prod.Lex.left; omega)
  all_goals try (apply Prod.Lex.left; have h2 := List.sizeOf_lt_of_mem (List.get?_mem h); omega)
  all_goals try (apply Prod.Lex.left; have hk := ty_sizeOf_pos k; have hv := ty_sizeOf_pos v; omega)
  all_goals apply Prod.Lex.right
  all_goals first
  | (apply Prod.Lex.left; omega)
  | (apply Prod.Lex.right; omega)

/-- `load_associative_container`'s map loop: `n` key/value pairs. -/
def binLoadPairs (ρ : Reg) (fuel : Nat) (k v : Ty) :
    Nat → List BinTok → Except SErr (List (Val × Val) × List BinTok)
  | 0, s => .ok ([], s)
  | n + 1, s => do
      let qk ← binLoad ρ fuel k s
      let qv ← binLoad ρ fuel v qk.2
      let qs ← binLoadPairs ρ fuel k v n qv.2
      .ok ((qk.1, qv.1) :: qs.1, qs.2)
termination_by n s => (fuel, sizeOf k + sizeOf v, 1, n)
decreasing_by
  all_goals simp_wf
  all_goals try (apply Prod.Lex.left; omega)
  all_goals apply Prod.Lex.right
  all_goals try (apply Prod.Lex.left; omega)
  all_goals try (apply Prod.Lex.left; have h2 := List.sizeOf_lt_of_mem (List.get?_mem h); omega)
  all_goals try (apply Prod.Lex.left; have hk := ty_sizeOf_pos k; have hv := ty_sizeOf_pos v; omega)
  all_goals apply Prod.Lex.right
  all_goals first
  | (apply Prod.Lex.left; omega)
  | (apply Prod.Lex.right; omega)

/-- `load_tuple_impl`: one load per component type. -/
def binLoadTypes (ρ : Reg) (fuel : Nat) :
    List Ty → List BinTok → Except SErr (List Val × List BinTok)
  | [], s => .ok ([], s)
  | t :: ts, s => do
      let q ← binLoad ρ fuel t s
      let qs ← binLoadTypes ρ fuel ts q.2
      .ok (q.1 :: qs.1, qs.2)
termination_by ts s => (fuel, sizeOf ts, 1, 0)
decreasing_by
  all_goals simp_wf
  all_goals try (apply Prod.Lex.left; omega)
  all_goals apply Prod.Lex.right
  all_goals try (apply Prod.Lex.left; omega)
  all_goals try (apply Prod.Lex.left; have h2 := List.sizeOf_lt_of_mem (List.get?_mem h); omega)
  all_goals try (apply Prod.Lex.left; have hk := ty_sizeOf_pos k; have hv := ty_sizeOf_pos v; omega)
  all_goals apply Prod.Lex.right
  all_goals first
  | (apply Prod.Lex.left; omega)
  | (apply Prod.Lex.right; omega)

/-- `load_object`'s member loop: one load per descriptor entry. -/
def binLoadFields (ρ : Reg) (fuel : Nat) :
    List (String × Ty) → List BinTok → Except SErr (List Val × List BinTok)
  | [], s => .ok ([], s)
  | (nm, ft) :: fs, s => do
      let q ← binLoad ρ fuel ft s
      let qs ← binLoadFields ρ fuel fs q.2
      .ok (q.1 :: qs.1, qs.2)
termination_by fs s => (fuel, sizeOf fs, 1, 0)
decreasing_by
  all_goals simp_wf
  all_goals try (apply Prod.Lex.left; omega)
  all_goals apply Prod.Lex.right
  all_goals try (apply Prod.Lex.left; omega)
  all_goals try (apply Prod.Lex.left; have h2 := List.sizeOf_lt_of_mem (List.get?_mem h); omega)
  all_goals try (apply Prod.Lex.left; have hk := ty_sizeOf_pos k; have hv := ty_sizeOf_pos v; omega)
  all_goals apply Prod.Lex.right
  all_goals first
  | (apply Prod.Lex.left; omega)
  | (apply Prod.Lex.right; omega)

end


/-!
## Byte-stream unfolding lemmas
-/

/-- Unfolding of `binSave` at an optional value. -/
theorem binSave_topt (ρ : Reg) (fuel : Nat) (t : Ty) (o : Option Val) :
    binSave ρ fuel (.topt t) (.vopt o) =
    (match o with
     | none => .ok [.bu32 2, .bbool false]
     | some x => (binSave ρ fuel t x).map fun out => .bu32 2 :: .bbool true :: out) := by
  rw [binSave.eq_def]

/-- Unfolding of `binSave` at a variant value. -/
theorem binSave_tvar (ρ : Reg) (fuel : Nat) (ts : List Ty) (tag : Nat) (x : Val) :
    binSave ρ fuel (.tvar ts) (.vvar tag x) =
    (match ts.get? tag with
     | some t => (binSave ρ fuel t x).map fun out => .bu32 (tag % 256) :: out
     | none => .error .mismatch) := by
  rw [binSave.eq_def]
  split <;> split <;> simp_all
  all_goals rw [List.getElem?_eq_none (by omega)]

/-- Unfolding of `binSave` at a null shared handle. -/
theorem binSave_tshared_none (ρ : Reg) (fuel : Nat) (t : Ty) :
    binSave ρ fuel (.tshared t) (.vshared none) = .ok [.bstr EMPTY_NAME] := by
  rw [binSave.eq_def]

/-- Unfolding of `binSave` at a non-null shared handle. -/
theorem binSave_tshared_some (ρ : Reg) (fuel : Nat) (t : Ty) (dn : String) (pv : Val) :
    binSave ρ fuel (.tshared t) (.vshared (some (dn, pv))) =
    (if isObjTy t then (binSave ρ fuel t pv).map fun out => .bstr dn :: out
     else
       match ρ dn with
       | some t' =>
           match fuel with
           | 0 => .error .undefined
           | m + 1 => (binSave ρ m t' pv).map fun out => .bstr dn :: out
       | none => .ok [.bstr dn]) := by
  rw [binSave.eq_def]

/-- Unfolding of `binSave` at a unique handle. -/
theorem binSave_tuniq (ρ : Reg) (fuel : Nat) (t : Ty) (o : Option Val) :
    binSave ρ fuel (.tuniq t) (.vuniq o) =
    (match o with
     | none => .error .undefined
     | some pv => binSave ρ fuel t pv) := by
  rw [binSave.eq_def]

/-- Unfolding of `binLoad` at a sequence-container type. -/
theorem binLoad_tvec (ρ : Reg) (fuel : Nat) (t : Ty) (s : List BinTok) :
    binLoad ρ fuel (.tvec t) s =
    (match s with
     | .bu32 n :: r => (binLoadList ρ fuel t n r).map fun q => (.vvec q.1, q.2)
     | _ => .error .decode) := by
  rw [binLoad.eq_def]

/-- Unfolding of `binLoad` at a set-container type. -/
theorem binLoad_tset (ρ : Reg) (fuel : Nat) (t : Ty) (s : List BinTok) :
    binLoad ρ fuel (.tset t) s =
    (match s with
     | .bu32 n :: r => (binLoadList ρ fuel t n r).map fun q => (.vset q.1, q.2)
     | _ => .error .decode) := by
  rw [binLoad.eq_def]

/-- Unfolding of `binLoad` at a map type. -/
theorem binLoad_tmap (ρ : Reg) (fuel : Nat) (k v : Ty) (s : List BinTok) :
    binLoad ρ fuel (.tmap k v) s =
    (match s with
     | .bu32 n :: r =>
         serializationCheck (n % 2 = 0) >>= fun _ =>
           (binLoadPairs ρ fuel k v (n / 2) r).map fun q => (.vmap q.1, q.2)
     | _ => .error .decode) := by
  rw [binLoad.eq_def]

/-- Unfolding of `binLoad` at a fixed-array type. -/
theorem binLoad_tarr (ρ : Reg) (fuel : Nat) (t : Ty) (n : Nat) (s : List BinTok) :
    binLoad ρ fuel (.tarr t n) s =
    (match s with
     | .bu32 m :: r =>
         serializationCheck (m = n) >>= fun _ =>
           (binLoadList ρ fuel t n r).map fun q => (.varr q.1, q.2)
     | _ => .error .decode) := by
  rw [binLoad.eq_def]

/-- Unfolding of `binLoad` at a pair type. -/
theorem binLoad_tpair (ρ : Reg) (fuel : Nat) (a b : Ty) (s : List BinTok) :
    binLoad ρ fuel (.tpair a b) s =
    (binLoad ρ fuel a s >>= fun qa =>
      binLoad ρ fuel b qa.2 >>= fun qb => .ok (.vpair qa.1 qb.1, qb.2)) := by
  rw [binLoad.eq_def]

/-- Unfolding of `binLoad` at a tuple type. -/
theorem binLoad_ttup (ρ : Reg) (fuel : Nat) (ts : List Ty) (s : List BinTok) :
    binLoad ρ fuel (.ttup ts) s =
    (match s with
     | .bu32 m :: r =>
         serializationCheck (m = ts.length) >>= fun _ =>
           (binLoadTypes ρ fuel ts r).map fun q => (.vtup q.1, q.2)
     | _ => .error .decode) := by
  rw [binLoad.eq_def]

/-- Unfolding of `binLoad` at an optional type. -/
theorem binLoad_topt (ρ : Reg) (fuel : Nat) (t : Ty) (s : List BinTok) :
    binLoad ρ fuel (.topt t) s =
    (match s with
     | .bu32 _ :: .bbool b :: r =>
         if b then (binLoad ρ fuel t r).map fun q => (.vopt (some q.1), q.2)
         else .ok (.vopt none, r)
     | _ => .error .decode) := by
  rw [binLoad.eq_def]

/-- Unfolding of `binLoad` at a variant type. -/
theorem binLoad_tvar (ρ : Reg) (fuel : Nat) (ts : List Ty) (s : List BinTok) :
    binLoad ρ fuel (.tvar ts) s =
    (match s with
     | .bu32 tag :: r =>
         serializationCheck (tag < ts.length) >>= fun _ =>
           match ts.get? tag with
           | some t => (binLoad ρ fuel t r).map fun q => (.vvar tag q.1, q.2)
           | none => .error .undefined
     | _ => .error .decode) := by
  rw [binLoad.eq_def]
  dsimp only
  split
  · simp only [serializationCheck_bind]
    split <;> split <;> simp_all
    all_goals (rename_i hle hsome; rw [List.getElem?_eq_none hle] at hsome; simp at hsome)
  · rfl

/-- Unfolding of `binLoad` at a reflectable-aggregate type. -/
theorem binLoad_tobj (ρ : Reg) (fuel : Nat) (c : String) (fs : List (String × Ty))
    (s : List BinTok) :
    binLoad ρ fuel (.tobj c fs) s =
    (if fs.isEmpty then .ok (.vobj c [], s)
     else
       match s with
       | .bstr cn :: r =>
           if cn = EMPTY_NAME then
             .ok (.vobj c (fs.attach.map fun el => defaultVal el.1.2), r)
           else
             (binLoadFields ρ fuel fs r).map fun q => (.vobj c q.1, q.2)
       | _ => .error .decode) := by
  rw [binLoad.eq_def]

/-- Unfolding of `binLoad` at a shared-handle type. -/
theorem binLoad_tshared (ρ : Reg) (fuel : Nat) (t : Ty) (s : List BinTok) :
    binLoad ρ fuel (.tshared t) s =
    (match s with
     | .bstr cn :: r =>
         if cn = EMPTY_NAME then .ok (.vshared none, r)
         else
           match ρ cn with
           | some t' =>
               match fuel with
               | 0 => .error .undefined
               | m + 1 =>
                   (binLoad ρ m t' r).map fun q =>
                     (.vshared (some (tyName t', q.1)), q.2)
           | none =>
               if isObjTy t then
                 (binLoad ρ fuel t (r ++ [.bstr cn])).map fun q =>
                   (.vshared (some (tyName t, q.1)), q.2)
               else
                 .ok (.vshared none, r)
     | _ => .error .decode) := by
  rw [binLoad.eq_def]

/-- Unfolding of `binLoad` at a unique-handle type. -/
theorem binLoad_tuniq (ρ : Reg) (fuel : Nat) (t : Ty) (s : List BinTok) :
    binLoad ρ fuel (.tuniq t) s =
      (binLoad ρ fuel t s).map fun q => (.vuniq (some q.1), q.2) := by
  rw [binLoad.eq_def]

/-!
## Byte-stream sequential round-trip composition
-/

/-- Element-wise frame round trip composes over `load_container`'s
sequential loop: saving each element back to back and loading the
element count recovers the list, pushing each element's garbage
(shared-fallback class names) behind the remainder in order. -/
theorem binList_rt (fuel : Nat) (t : Ty) (xs : List Val)
    (h : ∀ x ∈ xs, ∃ o g, binSave emptyReg fuel t x = .ok o ∧
      ∀ rest, binLoad emptyReg fuel t (o ++ rest) = .ok (x, rest ++ g)) :
    ∃ outs g, exSeq (xs.map fun x => binSave emptyReg fuel t x) = .ok outs ∧
      ∀ rest, binLoadList emptyReg fuel t xs.length (outs.flatten ++ rest)
        = .ok (xs, rest ++ g) := by
  induction xs with
  | nil =>
      refine ⟨[], [], rfl, fun rest => ?_⟩
      simp [binLoadList]
  | cons x xs ih =>
      obtain ⟨o, gx, hSx, hLx⟩ := h x (by simp)
      obtain ⟨outs, g, hS, hL⟩ := ih fun y hy => h y (by simp [hy])
      refine ⟨o :: outs, gx ++ g, by simp [exSeq_cons, hSx, hS], fun rest => ?_⟩
      rw [List.length_cons, List.flatten_cons, List.append_assoc]
      rw [show binLoadList emptyReg fuel t (xs.length + 1)
            (o ++ (outs.flatten ++ rest)) =
          (binLoad emptyReg fuel t (o ++ (outs.flatten ++ rest)) >>= fun q =>
            binLoadList emptyReg fuel t xs.length q.2 >>= fun qs =>
              .ok (q.1 :: qs.1, qs.2)) from by rw [binLoadList]]
      rw [hLx (outs.flatten ++ rest)]
      simp only [exOk_bind]
      rw [List.append_assoc]
      rw [hL (rest ++ gx)]
      simp [List.append_assoc]

/-- Pair-wise version for `load_associative_container`'s map loop. -/
theorem binPairs_rt (fuel : Nat) (k v2 : Ty) (ps : List (Val × Val))
    (h : ∀ p ∈ ps,
      (∃ o g, binSave emptyReg fuel k p.1 = .ok o ∧
        ∀ rest, binLoad emptyReg fuel k (o ++ rest) = .ok (p.1, rest ++ g)) ∧
      (∃ o g, binSave emptyReg fuel v2 p.2 = .ok o ∧
        ∀ rest, binLoad emptyReg fuel v2 (o ++ rest) = .ok (p.2, rest ++ g))) :
    ∃ outs g, exSeq (ps.map fun p => do
        let ok ← binSave emptyReg fuel k p.1
        let ov ← binSave emptyReg fuel v2 p.2
        Except.ok (ok ++ ov)) = .ok outs ∧
      ∀ rest, binLoadPairs emptyReg fuel k v2 ps.length (outs.flatten ++ rest)
        = .ok (ps, rest ++ g) := by
  induction ps with
  | nil =>
      refine ⟨[], [], rfl, fun rest => ?_⟩
      simp [binLoadPairs]
  | cons p ps ih =>
      obtain ⟨⟨ok, gk, hSk, hLk⟩, ⟨ov, gv, hSv, hLv⟩⟩ := h p (by simp)
      obtain ⟨outs, g, hS, hL⟩ := ih fun q hq => h q (by simp [hq])
      refine ⟨(ok ++ ov) :: outs, gk ++ (gv ++ g),
        by simp [exSeq_cons, hSk, hSv, hS], fun rest => ?_⟩
      rw [List.length_cons, List.flatten_cons, List.append_assoc]
      rw [show binLoadPairs emptyReg fuel k v2 (ps.length + 1)
            ((ok ++ ov) ++ (outs.flatten ++ rest)) =
          (binLoad emptyReg fuel k ((ok ++ ov) ++ (outs.flatten ++ rest)) >>= fun qk =>
            binLoad emptyReg fuel v2 qk.2 >>= fun qv =>
              binLoadPairs emptyReg fuel k v2 ps.length qv.2 >>= fun qs =>
                .ok ((qk.1, qv.1) :: qs.1, qs.2)) from by rw [binLoadPairs]]
      simp only [List.append_assoc]
      rw [hLk (ov ++ (outs.flatten ++ rest))]
      simp only [exOk_bind, List.append_assoc]
      rw [hLv (outs.flatten ++ (rest ++ gk))]
      simp only [exOk_bind, List.append_assoc]
      rw [hL (rest ++ (gk ++ gv))]
      simp [List.append_assoc]

/-- Component-wise version for `load_tuple_impl`. -/
theorem binTypes_rt (fuel : Nat) : ∀ (ts : List Ty) (xs : List Val),
    xs.length = ts.length →
    (∀ q ∈ ts.zip xs, ∃ o g, binSave emptyReg fuel q.1 q.2 = .ok o ∧
      ∀ rest, binLoad emptyReg fuel q.1 (o ++ rest) = .ok (q.2, rest ++ g)) →
    ∃ outs g, exSeq (List.zipWith (fun t2 x => binSave emptyReg fuel t2 x) ts xs)
        = .ok outs ∧
      ∀ rest, binLoadTypes emptyReg fuel ts (outs.flatten ++ rest)
        = .ok (xs, rest ++ g)
  | [], [], _, _ => by
      refine ⟨[], [], rfl, fun rest => ?_⟩
      simp [binLoadTypes]
  | t :: ts, x :: xs, hlen, h => by
      obtain ⟨o, gx, hSx, hLx⟩ := h (t, x) (by simp)
      obtain ⟨outs, g, hS, hL⟩ := binTypes_rt fuel ts xs
        (by simpa using hlen) (fun q hq => h q (by simp [hq]))
      refine ⟨o :: outs, gx ++ g, by simp [exSeq_cons, hSx, hS], fun rest => ?_⟩
      rw [List.flatten_cons, List.append_assoc]
      rw [show binLoadTypes emptyReg fuel (t :: ts)
            (o ++ (outs.flatten ++ rest)) =
          (binLoad emptyReg fuel t (o ++ (outs.flatten ++ rest)) >>= fun q =>
            binLoadTypes emptyReg fuel ts q.2 >>= fun qs =>
              .ok (q.1 :: qs.1, qs.2)) from by rw [binLoadTypes]]
      rw [hLx (outs.flatten ++ rest)]
      simp only [exOk_bind]
      rw [List.append_assoc, hL (rest ++ gx)]
      simp [List.append_assoc]

/-- Member-wise version for `load_object`'s member loop. -/
theorem binFields_rt (fuel : Nat) : ∀ (fs : List (String × Ty)) (vs : List Val),
    vs.length = fs.length →
    (∀ q ∈ fs.zip vs, ∃ o g, binSave emptyReg fuel q.1.2 q.2 = .ok o ∧
      ∀ rest, binLoad emptyReg fuel q.1.2 (o ++ rest) = .ok (q.2, rest ++ g)) →
    ∃ outs g, exSeq (List.zipWith (fun f x => binSave emptyReg fuel f.2 x) fs vs)
        = .ok outs ∧
      ∀ rest, binLoadFields emptyReg fuel fs (outs.flatten ++ rest)
        = .ok (vs, rest ++ g)
  | [], [], _, _ => by
      refine ⟨[], [], rfl, fun rest => ?_⟩
      simp [binLoadFields]
  | (nm, ft) :: fs, x :: vs, hlen, h => by
      obtain ⟨o, gx, hSx, hLx⟩ := h ((nm, ft), x) (by simp)
      obtain ⟨outs, g, hS, hL⟩ := binFields_rt fuel fs vs
        (by simpa using hlen) (fun q hq => h q (by simp [hq]))
      refine ⟨o :: outs, gx ++ g, by simp [exSeq_cons, hSx, hS], fun rest => ?_⟩
      rw [List.flatten_cons, List.append_assoc]
      rw [show binLoadFields emptyReg fuel ((nm, ft) :: fs)
            (o ++ (outs.flatten ++ rest)) =
          (binLoad emptyReg fuel ft (o ++ (outs.flatten ++ rest)) >>= fun q =>
            binLoadFields emptyReg fuel fs q.2 >>= fun qs =>
              .ok (q.1 :: qs.1, qs.2)) from by rw [binLoadFields]]
      rw [hLx (outs.flatten ++ rest)]
      simp only [exOk_bind]
      rw [List.append_assoc, hL (rest ++ gx)]
      simp [List.append_assoc]


/-- Universal byte-stream frame round trip: for every admissible static
type and well-typed value, `save` appends a token block `out` and
loading `out` followed by any continuation `rest` returns the original
value, consuming exactly `out` and leaving `rest` — except that the
reflectable shared-handle fallback appends garbage `g` (the re-pushed
class names) at the back of the stream, after the continuation.  The
loaded value is recovered exactly in every case. -/
theorem binRT (fuel : Nat) : ∀ (t : Ty) (v : Val), goodTy t = true → wf t v = true →
    ∃ out g, binSave emptyReg fuel t v = .ok out ∧
      ∀ rest, binLoad emptyReg fuel t (out ++ rest) = .ok (v, rest ++ g)
  | .tbool, v, hg, hw => by
      cases v <;> simp only [wf, Bool.false_eq_true] at hw
      case vb b =>
        exact ⟨[.bbool b], [], by simp [binSave], fun rest => by simp [binLoad]⟩
  | .tint, v, hg, hw => by
      cases v <;> simp only [wf, Bool.false_eq_true] at hw
      case vi n =>
        exact ⟨[.bint n], [], by simp [binSave], fun rest => by simp [binLoad]⟩
  | .tstr, v, hg, hw => by
      cases v <;> simp only [wf, Bool.false_eq_true] at hw
      case vs str =>
        exact ⟨[.bstr str], [], by simp [binSave], fun rest => by simp [binLoad]⟩
  | .tunit, v, hg, hw => by
      cases v <;> simp only [wf, Bool.false_eq_true] at hw
      case vunit =>
        exact ⟨[.bu8 0], [], by simp [binSave], fun rest => by simp [binLoad]⟩
  | .tvec t, v, hg, hw => by
      cases v <;> simp only [wf, Bool.false_eq_true] at hw
      case vvec xs =>
        simp only [goodTy] at hg
        obtain ⟨outs, g, hS, hL⟩ := binList_rt fuel t xs
          (fun x hx => binRT fuel t x hg (attach_all_mem hw x hx))
        refine ⟨.bu32 xs.length :: outs.flatten, g, by simp [binSave, hS], fun rest => ?_⟩
        rw [List.cons_append]
        simp only [binLoad_tvec]
        rw [hL rest]
        rfl
  | .tset t, v, hg, hw => by
      cases v <;> simp only [wf, Bool.false_eq_true] at hw
      case vset xs =>
        simp only [goodTy] at hg
        obtain ⟨outs, g, hS, hL⟩ := binList_rt fuel t xs
          (fun x hx => binRT fuel t x hg (attach_all_mem hw x hx))
        refine ⟨.bu32 xs.length :: outs.flatten, g, by simp [binSave, hS], fun rest => ?_⟩
        rw [List.cons_append]
        simp only [binLoad_tset]
        rw [hL rest]
        rfl
  | .tmap k v2, v, hg, hw => by
      cases v <;> simp only [wf, Bool.false_eq_true] at hw
      case vmap ps =>
        simp only [goodTy, Bool.and_eq_true] at hg
        have hrt : ∀ p ∈ ps,
            (∃ o g, binSave emptyReg fuel k p.1 = .ok o ∧
              ∀ rest, binLoad emptyReg fuel k (o ++ rest) = .ok (p.1, rest ++ g)) ∧
            (∃ o g, binSave emptyReg fuel v2 p.2 = .ok o ∧
              ∀ rest, binLoad emptyReg fuel v2 (o ++ rest) = .ok (p.2, rest ++ g)) := by
          intro p hp
          have hp2 := attach_all_mem (p := fun q => wf k q.1 && wf v2 q.2) hw p hp
          simp only [Bool.and_eq_true] at hp2
          exact ⟨binRT fuel k p.1 hg.1 hp2.1, binRT fuel v2 p.2 hg.2 hp2.2⟩
        obtain ⟨outs, g, hS, hL⟩ := binPairs_rt fuel k v2 ps hrt
        refine ⟨.bu32 (2 * ps.length) :: outs.flatten, g, ?_, fun rest => ?_⟩
        · simp only [binSave]
          rw [hS]
          rfl
        · rw [List.cons_append]
          simp only [binLoad_tmap, serializationCheck_bind]
          have hdiv : 2 * ps.length / 2 = ps.length := by omega
          rw [hdiv, hL rest]
          rfl
  | .tarr t n, v, hg, hw => by
      cases v <;> simp only [wf, Bool.false_eq_true] at hw
      case varr xs =>
        simp only [goodTy] at hg
        simp only [Bool.and_eq_true, decide_eq_true_eq] at hw
        obtain ⟨hxn, hall⟩ := hw
        obtain ⟨outs, g, hS, hL⟩ := binList_rt fuel t xs
          (fun x hx => binRT fuel t x hg (attach_all_mem hall x hx))
        refine ⟨.bu32 n :: outs.flatten, g, by simp [binSave, hxn, hS], fun rest => ?_⟩
        rw [List.cons_append]
        simp only [binLoad_tarr, serializationCheck_bind]
        subst hxn
        rw [hL rest]
        rfl
  | .tpair a b, v, hg, hw => by
      cases v <;> simp only [wf, Bool.false_eq_true] at hw
      case vpair x y =>
        simp only [goodTy, Bool.and_eq_true] at hg
        simp only [Bool.and_eq_true] at hw
        obtain ⟨oa, ga, hSa, hLa⟩ := binRT fuel a x hg.1 hw.1
        obtain ⟨ob, gb, hSb, hLb⟩ := binRT fuel b y hg.2 hw.2
        refine ⟨oa ++ ob, ga ++ gb, by simp [binSave, hSa, hSb], fun rest => ?_⟩
        rw [binLoad_tpair]
        simp only [List.append_assoc]
        rw [hLa (ob ++ rest)]
        simp only [exOk_bind, List.append_assoc]
        rw [hLb (rest ++ ga)]
        simp [List.append_assoc]
  | .ttup ts, v, hg, hw => by
      cases v <;> simp only [wf, Bool.false_eq_true] at hw
      case vtup xs =>
        simp only [Bool.and_eq_true, decide_eq_true_eq] at hw
        obtain ⟨hlen, hall⟩ := hw
        simp only [goodTy] at hg
        obtain ⟨outs, g, hS, hL⟩ := binTypes_rt fuel ts xs hlen
          (fun fx hfx =>
            have h2 : sizeOf fx.1 < sizeOf ts :=
              List.sizeOf_lt_of_mem (List.of_mem_zip hfx).1
            binRT fuel fx.1 fx.2
              (attach_all_mem hg fx.1 (List.of_mem_zip hfx).1)
              (attach_all_mem (p := fun fx => wf fx.1 fx.2) hall fx hfx))
        refine ⟨.bu32 ts.length :: outs.flatten, g, ?_, fun rest => ?_⟩
        · simp only [binSave, hlen, if_true]
          rw [zipWith_attach_eq ts xs (fun t2 x => binSave emptyReg fuel t2 x), hS]
          rfl
        · rw [List.cons_append]
          simp only [binLoad_ttup, serializationCheck_bind]
          rw [hL rest]
          rfl
  | .topt t, v, hg, hw => by
      cases v <;> try simp only [wf, Bool.false_eq_true] at hw
      case vopt o =>
        simp only [goodTy] at hg
        rw [wf_topt] at hw
        cases o with
        | none =>
            refine ⟨[.bu32 2, .bbool false], [], by rw [binSave_topt], fun rest => ?_⟩
            rw [List.cons_append, List.cons_append]
            simp [binLoad_topt]
        | some x =>
            have hw2 : wf t x = true := hw
            obtain ⟨o, g, hS, hL⟩ := binRT fuel t x hg hw2
            refine ⟨.bu32 2 :: .bbool true :: o, g,
              by rw [binSave_topt]; simp [hS], fun rest => ?_⟩
            rw [List.cons_append, List.cons_append]
            simp only [binLoad_topt, if_true]
            rw [hL rest]
            rfl
  | .tvar ts, v, hg, hw => by
      cases v <;> try simp only [wf, Bool.false_eq_true] at hw
      case vvar tag x =>
        split at hw
        case _ t hget =>
          simp only [goodTy, Bool.and_eq_true, decide_eq_true_eq] at hg
          have hsz : sizeOf t < sizeOf ts :=
            List.sizeOf_lt_of_mem (List.get?_mem hget)
          have hlt : tag < ts.length := by
            by_contra hge
            rw [List.get?_eq_none.mpr (by omega)] at hget
            exact Option.noConfusion hget
          have hmod : tag % 256 = tag := Nat.mod_eq_of_lt (by omega)
          obtain ⟨o, g, hS, hL⟩ := binRT fuel t x
            (attach_all_mem hg.2 t (List.get?_mem hget)) hw
          refine ⟨.bu32 tag :: o, g, ?_, fun rest => ?_⟩
          · rw [binSave_tvar, hget, hmod]
            simp [hS]
          · rw [List.cons_append]
            simp only [binLoad_tvar, serializationCheck_bind]
            rw [hget]
            dsimp only
            rw [hL rest]
            rfl
        case _ hnone =>
          simp at hw
  | .tobj c fs, v, hg, hw => by
      cases v <;> simp only [wf, Bool.false_eq_true] at hw
      case vobj dyn vs =>
        simp only [Bool.and_eq_true, decide_eq_true_eq] at hw
        obtain ⟨⟨hdyn, hlen⟩, hall⟩ := hw
        subst hdyn
        simp only [goodTy, Bool.and_eq_true, Bool.not_eq_true',
          decide_eq_false_iff_not] at hg
        obtain ⟨⟨⟨⟨hc1, hc2⟩, hfs⟩, hdist⟩, hflds⟩ := hg
        have hfmem : ∀ f ∈ fs, goodTy f.2 = true := by
          intro f hf
          have h3 := attach_all_mem
            (p := fun f => !(f.1 = "") && !(f.1 = CLASS_NAME) && goodTy f.2) hflds f hf
          simp only [Bool.and_eq_true, Bool.not_eq_true',
            decide_eq_false_iff_not] at h3
          exact h3.2
        obtain ⟨outs, g, hS, hL⟩ := binFields_rt fuel fs vs hlen.symm
          (fun fx hfx =>
            have h2 : sizeOf fx.1 < sizeOf fs :=
              List.sizeOf_lt_of_mem (List.of_mem_zip hfx).1
            have h3 : sizeOf fx.1.2 < sizeOf fx.1 := by
              obtain ⟨⟨nm, ft⟩, fv⟩ := fx
              show sizeOf ft < sizeOf (nm, ft)
              simp only [Prod.mk.sizeOf_spec]
              omega
            binRT fuel fx.1.2 fx.2
              (hfmem fx.1 (List.of_mem_zip hfx).1)
              (attach_all_mem (p := fun fx => wf fx.1.2 fx.2) hall fx hfx))
        refine ⟨.bstr dyn :: outs.flatten, g, ?_, fun rest => ?_⟩
        · simp only [binSave, hlen, le_refl, if_true]
          rw [zipWith_attach_eq fs vs (fun f x => binSave emptyReg fuel f.2 x), hS]
          rfl
        · rw [List.cons_append]
          simp only [binLoad_tobj]
          rw [if_neg (by simp [hfs])]
          rw [if_neg hc2]
          rw [hL rest]
          rfl
  | .tshared t, v, hg, hw => by
      cases v <;> try simp only [wf, Bool.false_eq_true] at hw
      case vshared o =>
        simp only [goodTy, Bool.and_eq_true] at hg
        obtain ⟨hobj, hgt⟩ := hg
        rw [wf_tshared] at hw
        cases o with
        | none =>
            refine ⟨[.bstr EMPTY_NAME], [], by rw [binSave_tshared_none], fun rest => ?_⟩
            rw [List.cons_append]
            simp only [binLoad_tshared, if_pos rfl]
            simp
        | some p =>
            obtain ⟨dn, pv⟩ := p
            have hw2 : (decide (dn = tyName t) && wf t pv) = true := hw
            simp only [Bool.and_eq_true, decide_eq_true_eq] at hw2
            obtain ⟨hdn, hpv⟩ := hw2
            obtain ⟨c, fs, rfl⟩ := isObjTy_eq hobj
            simp only [tyName] at hdn
            subst hdn
            have hc2 : ¬(dn = EMPTY_NAME) := by
              simp only [goodTy, Bool.and_eq_true, Bool.not_eq_true',
                decide_eq_false_iff_not] at hgt
              exact hgt.1.1.1.2
            obtain ⟨o, g, hS, hL⟩ := binRT fuel (.tobj dn fs) pv hgt hpv
            refine ⟨.bstr dn :: o, .bstr dn :: g, ?_, fun rest => ?_⟩
            · rw [binSave_tshared_some, if_pos (by simp [isObjTy])]
              simp [hS]
            · rw [List.cons_append]
              simp only [binLoad_tshared, emptyReg]
              rw [if_neg hc2, if_pos (by simp [isObjTy])]
              rw [List.append_assoc]
              rw [hL (rest ++ [BinTok.bstr dn])]
              simp [tyName, List.append_assoc]
  | .tuniq t, v, hg, hw => by
      cases v <;> try simp only [wf, Bool.false_eq_true] at hw
      case vuniq o =>
        rw [wf_tuniq] at hw
        cases o with
        | none => simp at hw
        | some pv =>
            have hw2 : wf t pv = true := hw
            simp only [goodTy] at hg
            obtain ⟨o, g, hS, hL⟩ := binRT fuel t pv hg hw2
            refine ⟨o, g, by rw [binSave_tuniq]; exact hS, fun rest => ?_⟩
            rw [binLoad_tuniq, hL rest]
            rfl
termination_by t v hg hw => sizeOf t
decreasing_by
  all_goals simp_wf
  all_goals try omega
  all_goals (subst_vars; simp only [tyName, Ty.tobj.sizeOf_spec]; omega)


/-!
## XML backing: stateful model with the thread-local cached node

`archiver_wrapper<pugi::xml_node>` returns mutable node references
through a `thread_local static inline xml_node_wrapper cached_node`
(`serialization.h` lines 727-785): every `get` assigns the looked-up or
appended child handle to `cached_node.node` and returns a reference to
that field.  The template traversal binds `auto& archive_tmp` to the
returned reference and recurses with it, so inside the recursion the
`archive` parameter *aliases* `cached_node.node`: each further `get`
re-targets the node that every enclosing frame's `archive` denotes.
The model makes this explicit: a document tree whose nodes are
addressed by stable paths (children are only ever appended, so paths
never shift), the cached register, and archive references that are
either a real node handle or the alias into the register.  pugixml
itself is the external collaborator: its documented handle semantics
(null-handle operations are no-ops returning null handles; `as_llong`
/ `as_bool` / `as_string` on absent text return 0 / false / "") are
modelled directly, with text kept as a typed payload because the
textual printer/parser pair is lossless per the spec.
-/

/-- Typed text payload of a node (`text().set` / `as_*`). -/
inductive XText : Type where
  | xnone
  | xb (b : Bool)
  | xi (n : Int)
  | xs (s : String)

/-- An attribute value (`set_value` overloads the wrapper uses: strings
for class names, unsigned ints for `Size` / `Index`). -/
inductive XAttrV : Type where
  | astr (s : String)
  | anat (n : Nat)

/-- A pugixml element node: tag, attributes in append order, text,
children in document order. -/
inductive XNode : Type where
  | node (tag : String) (attrs : List (String × XAttrV)) (text : XText)
      (children : List XNode)

/-- Node paths: child indices from the root.  Appending children never
invalidates an existing path. -/
abbrev XPath : Type := List Nat

def XNode.tag : XNode → String
  | .node g _ _ _ => g

def XNode.attrs : XNode → List (String × XAttrV)
  | .node _ a _ _ => a

def XNode.text : XNode → XText
  | .node _ _ t _ => t

def XNode.children : XNode → List XNode
  | .node _ _ _ cs => cs

/-- The node a path denotes, if the path is valid. -/
def xGet : XNode → XPath → Option XNode
  | n, [] => some n
  | n, i :: p =>
      match n.children.get? i with
      | some c => xGet c p
      | none => none

/-- Replace the node a path denotes (identity on an invalid path). -/
def xMod : XNode → XPath → (XNode → XNode) → XNode
  | n, [], f => f n
  | .node g a t cs, i :: p, f =>
      match cs.get? i with
      | some c => .node g a t (cs.set i (xMod c p f))
      | none => .node g a t cs

/-- The mutable state: the document plus the thread-local
`cached_node` register (`none` is pugixml's null handle). -/
structure XSt where
  root : XNode
  cached : Option XPath

/-- A C++ `pugi::xml_node&` as the wrapper hands them out: a real node
handle, or the reference into `cached_node.node`, which reads the
register at every use. -/
inductive XRef : Type where
  | real (p : XPath)
  | cache

/-- The path an archive reference currently denotes. -/
def xDeref (σ : XSt) : XRef → Option XPath
  | .real p => some p
  | .cache => σ.cached

/-- Append a fresh child with the given tag under the path. -/
def xAppend (root : XNode) (p : XPath) (tag : String) : XNode :=
  xMod root p fun m => .node m.tag m.attrs m.text
    (m.children ++ [.node tag [] .xnone []])

/-- Index of the first child with the given tag (`archive.child(name)`). -/
def xChildNamed (n : XNode) (tag : String) : Option Nat :=
  n.children.findIdx? fun c => c.tag = tag

/-- `text().set(...)` at a reference: a no-op on a null handle. -/
def xmlSetText (σ : XSt) (r : XRef) (txt : XText) : XSt :=
  match xDeref σ r with
  | none => σ
  | some p =>
      { σ with root := xMod σ.root p fun m => .node m.tag m.attrs txt m.children }

/-- `text()` read at a reference: absent nodes read as empty text. -/
def xmlGetText (σ : XSt) (r : XRef) : XText :=
  match xDeref σ r with
  | none => .xnone
  | some p =>
      match xGet σ.root p with
      | some n => n.text
      | none => .xnone

/-- `text().as_llong()` (absent or non-numeric text parses to 0). -/
def xTextAsInt : XText → Int
  | .xi n => n
  | _ => 0

/-- `text().as_bool()` (absent text parses to false). -/
def xTextAsBool : XText → Bool
  | .xb b => b
  | .xi n => n ≠ 0
  | _ => false

/-- `text().as_string()` (absent text reads as ""). -/
def xTextAsStr : XText → String
  | .xs s => s
  | .xb b => if b then "true" else "false"
  | .xi n => toString n
  | .xnone => ""

/-- `append_attribute(name).set_value(v)`: appends even when an
attribute of that name exists; a no-op on a null handle. -/
def xmlAppendAttr (σ : XSt) (r : XRef) (name : String) (v : XAttrV) : XSt :=
  match xDeref σ r with
  | none => σ
  | some p =>
      { σ with root := xMod σ.root p fun m =>
          .node m.tag (m.attrs ++ [(name, v)]) m.text m.children }

/-- `archive.attribute(name)`: the first attribute with that name. -/
def xmlGetAttr (σ : XSt) (r : XRef) (name : String) : Option XAttrV :=
  match xDeref σ r with
  | none => none
  | some p =>
      match xGet σ.root p with
      | some n => (n.attrs.find? fun a => a.1 = name).map Prod.snd
      | none => none

/-- An attribute's `as_string()`. -/
def xAttrAsStr : XAttrV → String
  | .astr s => s
  | .anat n => toString n

/-- An attribute's `as_uint()` (missing or textual attributes read 0). -/
def xAttrAsNat : Option XAttrV → Nat
  | some (.anat n) => n
  | _ => 0

/-- Mutable `get(archive, name)` (`serialization.h` lines 759-771):
`cached_node.node = archive.child(name); if (!cached_node.node)
cached_node.node = archive.append_child(name)`.  The register is
written *between* the two reads of `archive`: when `archive` itself
aliases the register and the child is missing, the second read sees
the null handle just stored, so `append_child` is a null no-op and the
returned reference is null. -/
def xmlGetName (σ : XSt) (r : XRef) (tag : String) : XSt × XRef :=
  let lookup : Option XPath :=
    match xDeref σ r with
    | none => none
    | some p =>
        match xGet σ.root p with
        | none => none
        | some n =>
            match xChildNamed n tag with
            | some i => some (p ++ [i])
            | none => none
  let σ1 : XSt := { σ with cached := lookup }
  match lookup with
  | some _ => (σ1, .cache)
  | none =>
      match xDeref σ1 r with
      | none => (σ1, .cache)
      | some p =>
          match xGet σ1.root p with
          | none => (σ1, .cache)
          | some n =>
              ({ root := xAppend σ1.root p tag,
                 cached := some (p ++ [n.children.length]) }, .cache)

/-- The cursor walk of mutable `get(archive, idx)` (`serialization.h`
lines 773-793): `child = archive.first_child(); for (i = 0; i < idx;
++i) { if (!child) child = archive.append_child("item"); else child =
child.next_sibling(); }`.  `p` is the parent's path — `archive` is
stable during the walk because the register is only written after it —
and the cursor is a sibling index under `p`. -/
def xmlIdxWalk (p : XPath) : XSt → Option Nat → Nat → XSt × Option Nat
  | σ, child, 0 => (σ, child)
  | σ, none, i + 1 =>
      match xGet σ.root p with
      | some n =>
          xmlIdxWalk p { σ with root := xAppend σ.root p "item" }
            (some n.children.length) i
      | none => xmlIdxWalk p σ none i
  | σ, some j, i + 1 =>
      let nxt : Option Nat :=
        match xGet σ.root p with
        | some n => if j + 1 < n.children.length then some (j + 1) else none
        | none => none
      xmlIdxWalk p σ nxt i

/-- Mutable `get(archive, idx)`: run the cursor walk, then `if (!child)
child = archive.append_child("item"); cached_node.node = child`. -/
def xmlGetIdx (σ : XSt) (r : XRef) (idx : Nat) : XSt × XRef :=
  match xDeref σ r with
  | none => ({ σ with cached := none }, .cache)
  | some p =>
      match xGet σ.root p with
      | none => ({ σ with cached := none }, .cache)
      | some n =>
          let first : Option Nat := if n.children.isEmpty then none else some 0
          let w := xmlIdxWalk p σ first idx
          match w.2 with
          | some j => ({ w.1 with cached := some (p ++ [j]) }, .cache)
          | none =>
              match xGet w.1.root p with
              | some n2 =>
                  ({ root := xAppend w.1.root p "item",
                     cached := some (p ++ [n2.children.length]) }, .cache)
              | none => ({ w.1 with cached := none }, .cache)

/-- `push_class_name`: `append_attribute("class").set_value(name)`. -/
def xmlPushClass (σ : XSt) (r : XRef) (name : String) : XSt :=
  xmlAppendAttr σ r "class" (.astr name)

/-- `pop_class_name`: first `class` attribute, or "" with a warning. -/
def xmlPopClass (σ : XSt) (r : XRef) : String :=
  match xmlGetAttr σ r "class" with
  | some a => xAttrAsStr a
  | none => ""

/-- `push_index`: `append_attribute(name).set_value(idx)` with
`unsigned int idx`. -/
def xmlPushIdx (σ : XSt) (r : XRef) (name : String) (idx : Nat) : XSt :=
  xmlAppendAttr σ r name (.anat idx)

/-- `pop_index`: `attribute(name).as_uint()`. -/
def xmlPopIdx (σ : XSt) (r : XRef) (name : String) : Nat :=
  xAttrAsNat (xmlGetAttr σ r name)

/-- `resize`: `append_attribute("Size").set_value(n)`. -/
def xmlResize (σ : XSt) (r : XRef) (n : Nat) : XSt :=
  xmlAppendAttr σ r SIZE_NAME (.anat n)

/-- `size`: the `Size` attribute if present, else the child count. -/
def xmlSizeOp (σ : XSt) (r : XRef) : Nat :=
  match xmlGetAttr σ r SIZE_NAME with
  | some a =>
      match a with
      | .anat n => n
      | .astr _ => 0
  | none =>
      match xDeref σ r with
      | none => 0
      | some p =>
          match xGet σ.root p with
          | some n => n.children.length
          | none => 0


mutual

/-- `serialization::save` at `Archiver = pugi::xml_node`: the same
`serializer_impl` dispatch as `jsonSave` / `binSave`, threading the
document-plus-register state through the XML wrapper operations.  The
archive reference a recursive call receives is the register alias that
`get` returned, exactly as the C++ binds `auto& archive_tmp`. -/
def xmlSave (ρ : Reg) (fuel : Nat) : Ty → Val → XSt → XRef → Except SErr XSt
  | .tbool, .vb b, σ, r => .ok (xmlSetText σ r (.xb b))
  | .tint, .vi n, σ, r => .ok (xmlSetText σ r (.xi n))
  | .tstr, .vs str, σ, r => .ok (xmlSetText σ r (.xs str))
  | .tunit, .vunit, σ, _ => .ok σ
    -- the monostate push branch writes nothing in XML
  | .tvec t, .vvec xs, σ, r =>
      xmlSaveSeq ρ fuel t xs 0 (xmlResize σ r xs.length) r
  | .tset t, .vset xs, σ, r =>
      xmlSaveSeq ρ fuel t xs 0 (xmlResize σ r xs.length) r
  | .tmap k v, .vmap ps, σ, r =>
      xmlSavePairs ρ fuel k v ps 0 (xmlResize σ r (2 * ps.length)) r
  | .tarr t n, .varr xs, σ, r =>
      if xs.length = n then
        xmlSaveSeq ρ fuel t xs 0 (xmlResize σ r n) r
      else .error .mismatch
  | .tpair a b, .vpair x y, σ, r => do
      let g0 := xmlGetIdx σ r 0
      let σ2 ← xmlSave ρ fuel a x g0.1 g0.2
      let g1 := xmlGetIdx σ2 r 1
      xmlSave ρ fuel b y g1.1 g1.2
  | .ttup ts, .vtup xs, σ, r =>
      if xs.length = ts.length then
        xmlSaveTypes ρ fuel ts xs 0 (xmlResize σ r ts.length) r
      else .error .mismatch
  | .topt t, .vopt o, σ, r =>
      match o with
      | none =>
          let g0 := xmlGetIdx (xmlResize σ r 2) r 0
          .ok (xmlSetText g0.1 g0.2 (.xb false))
      | some x => do
          let g0 := xmlGetIdx (xmlResize σ r 2) r 0
          let σ2 := xmlSetText g0.1 g0.2 (.xb true)
          let g1 := xmlGetIdx σ2 r 1
          xmlSave ρ fuel t x g1.1 g1.2
  | .tvar ts, .vvar tag x, σ, r =>
      match h : ts.get? tag with
      | some t =>
          let σ1 := xmlPushIdx σ r INDEX_NAME (tag % 256)
          let g := xmlGetName σ1 r VALUE_NAME
          xmlSave ρ fuel t x g.1 g.2
      | none => .error .mismatch
  | .tobj _ fs, .vobj dyn vs, σ, r =>
      if fs.length ≤ vs.length then
        xmlSaveFields ρ fuel fs vs (xmlPushClass σ r dyn) r
      else .error .mismatch
  | .tshared t, .vshared o, σ, r =>
      match o with
      | none => .ok (xmlPushClass σ r EMPTY_NAME)
      | some (dn, pv) =>
          let σ1 := xmlPushClass σ r dn
          if isObjTy t then xmlSave ρ fuel t pv σ1 r
          else
            match ρ dn with
            | some t' =>
                match fuel with
                | 0 => .error .undefined
                | m + 1 => xmlSave ρ m t' pv σ1 r
            | none => .ok σ1
  | .tuniq t, .vuniq o, σ, r =>
      match o with
      | none => .error .undefined
      | some pv => xmlSave ρ fuel t pv σ r
  | _, _, _, _ => .error .mismatch
termination_by t v σ r => (fuel, sizeOf t, 0, 0)
decreasing_by
  all_goals simp_wf
  all_goals try (apply Prod.Lex.left; omega)
  all_goals apply Prod.Lex.right
  all_goals try (apply Prod.Lex.left; omega)
  all_goals try (apply Prod.Lex.left; have h2 := List.sizeOf_lt_of_mem (List.get?_mem h); omega)
  all_goals try (apply Prod.Lex.left; have hk := ty_sizeOf_pos k; have hv := ty_sizeOf_pos v; omega)
  all_goals apply Prod.Lex.right
  all_goals first
  | (apply Prod.Lex.left; omega)
  | (apply Prod.Lex.right; omega)

/-- `save_container`'s element loop at XML: `get(archive, i)` then save
the element through the returned (register-alias) reference. -/
def xmlSaveSeq (ρ : Reg) (fuel : Nat) (t : Ty) :
    List Val → Nat → XSt → XRef → Except SErr XSt
  | [], _, σ, _ => .ok σ
  | x :: rest, i, σ, r => do
      let g := xmlGetIdx σ r i
      let σ2 ← xmlSave ρ fuel t x g.1 g.2
      xmlSaveSeq ρ fuel t rest (i + 1) σ2 r
termination_by xs i σ r => (fuel, sizeOf t, 1, xs.length)
decreasing_by
  all_goals simp_wf
  all_goals try (apply Prod.Lex.left; omega)
  all_goals apply Prod.Lex.right
  all_goals try (apply Prod.Lex.left; omega)
  all_goals apply Prod.Lex.right
  all_goals first
  | (apply Prod.Lex.left; omega)
  | (apply Prod.Lex.right; omega)

/-- `save_associative_container`'s map loop at XML: key at child `i`,
value at child `i+1`. -/
def xmlSavePairs (ρ : Reg) (fuel : Nat) (k v : Ty) :
    List (Val × Val) → Nat → XSt → XRef → Except SErr XSt
  | [], _, σ, _ => .ok σ
  | p :: rest, i, σ, r => do
      let gk := xmlGetIdx σ r i
      let σ2 ← xmlSave ρ fuel k p.1 gk.1 gk.2
      let gv := xmlGetIdx σ2 r (i + 1)
      let σ3 ← xmlSave ρ fuel v p.2 gv.1 gv.2
      xmlSavePairs ρ fuel k v rest (i + 2) σ3 r
termination_by ps i σ r => (fuel, sizeOf k + sizeOf v, 1, ps.length)
decreasing_by
  all_goals simp_wf
  all_goals try (apply Prod.Lex.left; omega)
  all_goals apply Prod.Lex.right
  all_goals try (apply Prod.Lex.left; have hk := ty_sizeOf_pos k; have hv := ty_sizeOf_pos v; omega)
  all_goals apply Prod.Lex.right
  all_goals first
  | (apply Prod.Lex.left; omega)
  | (apply Prod.Lex.right; omega)

/-- `save_tuple_impl` at XML: component `Is` at child `Is`. -/
def xmlSaveTypes (ρ : Reg) (fuel : Nat) :
    List Ty → List Val → Nat → XSt → XRef → Except SErr XSt
  | [], _, _, σ, _ => .ok σ
  | t :: ts, x :: xs, i, σ, r => do
      let g := xmlGetIdx σ r i
      let σ2 ← xmlSave ρ fuel t x g.1 g.2
      xmlSaveTypes ρ fuel ts xs (i + 1) σ2 r
  | _ :: _, [], _, _, _ => .error .mismatch
termination_by ts xs i σ r => (fuel, sizeOf ts, 1, 0)
decreasing_by
  all_goals simp_wf
  all_goals try (apply Prod.Lex.left; omega)
  all_goals apply Prod.Lex.right
  all_goals first
  | (apply Prod.Lex.left; omega)
  | (apply Prod.Lex.right; omega)

/-- `save_object`'s member loop at XML: `get(archive, name)` then save
the member. -/
def xmlSaveFields (ρ : Reg) (fuel : Nat) :
    List (String × Ty) → List Val → XSt → XRef → Except SErr XSt
  | [], _, σ, _ => .ok σ
  | (nm, ft) :: fs, x :: vs, σ, r => do
      let g := xmlGetName σ r nm
      let σ2 ← xmlSave ρ fuel ft x g.1 g.2
      xmlSaveFields ρ fuel fs vs σ2 r
  | _ :: _, [], _, _ => .error .mismatch
termination_by fs vs σ r => (fuel, sizeOf fs, 1, 0)
decreasing_by
  all_goals simp_wf
  all_goals try (apply Prod.Lex.left; omega)
  all_goals apply Prod.Lex.right
  all_goals first
  | (apply Prod.Lex.left; omega)
  | (apply Prod.Lex.right; omega)

end

mutual

/-- `serialization::load` at `Archiver = pugi::xml_node`.  No XML
primitive pop can fail: pugixml's `as_*` readers return defaults on
absent or mismatched text, so decoding errors are silent wrong values
rather than exceptions. -/
def xmlLoad (ρ : Reg) (fuel : Nat) : Ty → XSt → XRef → Except SErr (XSt × Val)
  | .tbool, σ, r => .ok (σ, .vb (xTextAsBool (xmlGetText σ r)))
  | .tint, σ, r => .ok (σ, .vi (xTextAsInt (xmlGetText σ r)))
  | .tstr, σ, r => .ok (σ, .vs (xTextAsStr (xmlGetText σ r)))
  | .tunit, σ, _ => .ok (σ, .vunit)
  | .tvec t, σ, r =>
      (xmlLoadSeq ρ fuel t (xmlSizeOp σ r) 0 σ r).map fun q => (q.1, .vvec q.2)
  | .tset t, σ, r =>
      (xmlLoadSeq ρ fuel t (xmlSizeOp σ r) 0 σ r).map fun q => (q.1, .vset q.2)
  | .tmap k v, σ, r => do
      let n := xmlSizeOp σ r
      serializationCheck (n % 2 = 0)
      (xmlLoadPairs ρ fuel k v (n / 2) 0 σ r).map fun q => (q.1, .vmap q.2)
  | .tarr t n, σ, r => do
      serializationCheck (xmlSizeOp σ r = n)
      (xmlLoadSeq ρ fuel t n 0 σ r).map fun q => (q.1, .varr q.2)
  | .tpair a b, σ, r => do
      let g0 := xmlGetIdx σ r 0
      let qa ← xmlLoad ρ fuel a g0.1 g0.2
      let g1 := xmlGetIdx qa.1 r 1
      let qb ← xmlLoad ρ fuel b g1.1 g1.2
      .ok (qb.1, .vpair qa.2 qb.2)
  | .ttup ts, σ, r => do
      serializationCheck (xmlSizeOp σ r = ts.length)
      (xmlLoadTypes ρ fuel ts 0 σ r).map fun q => (q.1, .vtup q.2)
  | .topt t, σ, r => do
      let n := xmlSizeOp σ r
      serializationCheck (1 ≤ n)
      let g0 := xmlGetIdx σ r 0
      let b := xTextAsBool (xmlGetText g0.1 g0.2)
      if b then do
        serializationCheck (2 ≤ n)
        let g1 := xmlGetIdx g0.1 r 1
        (xmlLoad ρ fuel t g1.1 g1.2).map fun q => (q.1, .vopt (some q.2))
      else .ok (g0.1, .vopt none)
  | .tvar ts, σ, r => do
      let tag := xmlPopIdx σ r INDEX_NAME
      serializationCheck (tag < ts.length)
      match h : ts.get? tag with
      | some t =>
          let g := xmlGetName σ r VALUE_NAME
          (xmlLoad ρ fuel t g.1 g.2).map fun q => (q.1, .vvar tag q.2)
      | none => .error .undefined
  | .tobj c fs, σ, r =>
      if fs.isEmpty then .ok (σ, .vobj c [])
      else do
        let cn := xmlPopClass σ r
        serializationCheck (cn ≠ "")
        if cn = EMPTY_NAME then
          .ok (σ, .vobj c (fs.attach.map fun el => defaultVal el.1.2))
        else
          (xmlLoadFields ρ fuel fs σ r).map fun q => (q.1, .vobj c q.2)
  | .tshared t, σ, r =>
      let cn := xmlPopClass σ r
      if cn = EMPTY_NAME then .ok (σ, .vshared none)
      else
        match ρ cn with
        | some t' =>
            match fuel with
            | 0 => .error .undefined
            | m + 1 =>
                (xmlLoad ρ m t' σ r).map fun q =>
                  (q.1, .vshared (some (tyName t', q.2)))
        | none =>
            if isObjTy t then
              (xmlLoad ρ fuel t (xmlPushClass σ r cn) r).map fun q =>
                (q.1, .vshared (some (tyName t, q.2)))
            else .ok (σ, .vshared none)
  | .tuniq t, σ, r =>
      (xmlLoad ρ fuel t σ r).map fun q => (q.1, .vuniq (some q.2))
termination_by t σ r => (fuel, sizeOf t, 0, 0)
decreasing_by
  all_goals simp_wf
  all_goals try (apply Prod.Lex.left; omega)
  all_goals apply Prod.Lex.right
  all_goals try (apply Prod.Lex.left; omega)
  all_goals try (apply Prod.Lex.left; have h2 := List.sizeOf_lt_of_mem (List.get?_mem h); omega)
  all_goals try (apply Prod.Lex.left; have hk := ty_sizeOf_pos k; have hv := ty_sizeOf_pos v; omega)
  all_goals apply Prod.Lex.right
  all_goals first
  | (apply Prod.Lex.left; omega)
  | (apply Prod.Lex.right; omega)

/-- `load_container`'s element loop at XML. -/
def xmlLoadSeq (ρ : Reg) (fuel : Nat) (t : Ty) :
    Nat → Nat → XSt → XRef → Except SErr (XSt × List Val)
  | 0, _, σ, _ => .ok (σ, [])
  | n + 1, i, σ, r => do
      let g := xmlGetIdx σ r i
      let q ← xmlLoad ρ fuel t g.1 g.2
      let qs ← xmlLoadSeq ρ fuel t n (i + 1) q.1 r
      .ok (qs.1, q.2 :: qs.2)
termination_by n i σ r => (fuel, sizeOf t, 1, n)
decreasing_by
  all_goals simp_wf
  all_goals try (apply Prod.Lex.left; omega)
  all_goals apply Prod.Lex.right
  all_goals try (apply Prod.Lex.left; omega)
  all_goals apply Prod.Lex.right
  all_goals first
  | (apply Prod.Lex.left; omega)
  | (apply Prod.Lex.right; omega)

/-- `load_associative_container`'s map loop at XML. -/
def xmlLoadPairs (ρ : Reg) (fuel : Nat) (k v : Ty) :
    Nat → Nat → XSt → XRef → Except SErr (XSt × List (Val × Val))
  | 0, _, σ, _ => .ok (σ, [])
  | n + 1, i, σ, r => do
      let gk := xmlGetIdx σ r (2 * i)
      let qk ← xmlLoad ρ fuel k gk.1 gk.2
      let gv := xmlGetIdx qk.1 r (2 * i + 1)
      let qv ← xmlLoad ρ fuel v gv.1 gv.2
      let qs ← xmlLoadPairs ρ fuel k v n (i + 1) qv.1 r
      .ok (qs.1, (qk.2, qv.2) :: qs.2)
termination_by n i σ r => (fuel, sizeOf k + sizeOf v, 1, n)
decreasing_by
  all_goals simp_wf
  all_goals try (apply Prod.Lex.left; omega)
  all_goals apply Prod.Lex.right
  all_goals try (apply Prod.Lex.left; have hk := ty_sizeOf_pos k; have hv := ty_sizeOf_pos v; omega)
  all_goals apply Prod.Lex.right
  all_goals first
  | (apply Prod.Lex.left; omega)
  | (apply Prod.Lex.right; omega)

/-- `load_tuple_impl` at XML. -/
def xmlLoadTypes (ρ : Reg) (fuel : Nat) :
    List Ty → Nat → XSt → XRef → Except SErr (XSt × List Val)
  | [], _, σ, _ => .ok (σ, [])
  | t :: ts, i, σ, r => do
      let g := xmlGetIdx σ r i
      let q ← xmlLoad ρ fuel t g.1 g.2
      let qs ← xmlLoadTypes ρ fuel ts (i + 1) q.1 r
      .ok (qs.1, q.2 :: qs.2)
termination_by ts i σ r => (fuel, sizeOf ts, 1, 0)
decreasing_by
  all_goals simp_wf
  all_goals try (apply Prod.Lex.left; omega)
  all_goals apply Prod.Lex.right
  all_goals first
  | (apply Prod.Lex.left; omega)
  | (apply Prod.Lex.right; omega)

/-- `load_object`'s member loop at XML. -/
def xmlLoadFields (ρ : Reg) (fuel : Nat) :
    List (String × Ty) → XSt → XRef → Except SErr (XSt × List Val)
  | [], σ, _ => .ok (σ, [])
  | (nm, ft) :: fs, σ, r => do
      let g := xmlGetName σ r nm
      let q ← xmlLoad ρ fuel ft g.1 g.2
      let qs ← xmlLoadFields ρ fuel fs q.1 r
      .ok (qs.1, q.2 :: qs.2)
termination_by fs σ r => (fuel, sizeOf fs, 1, 0)
decreasing_by
  all_goals simp_wf
  all_goals try (apply Prod.Lex.left; omega)
  all_goals apply Prod.Lex.right
  all_goals first
  | (apply Prod.Lex.left; omega)
  | (apply Prod.Lex.right; omega)

end

/-!
## Claim theorems
-/

/-- C1 (corrected).  Round-trip law for the JSON tree and byte-stream
backings: for every admissible static type (`goodTy`: shared handles
own reflectable element types with well-formed descriptors, variant
arity at most 255) and every well-typed value whose shared pointees
have their handles' static element types (`wf`), `load(save(x)) = x`
holds in the JSON tree backing, and in the byte-stream backing `load`
consumes exactly what `save` wrote and returns `x`, with the
shared-handle fallback's re-pushed class names left as trailing
garbage behind the unread remainder.  The claim's unrestricted law
over every backing is refuted on three counts by the counterexample
theorem: non-reflectable shared pointees, polymorphic shared pointees,
and the XML backing. -/
theorem roundtrip_wellformed_json_bin (fuel : Nat) (t : Ty) (v : Val)
    (hg : goodTy t = true) (hw : wf t v = true) :
    (∃ j, jsonSave emptyReg fuel t v = .ok j ∧ jsonLoad emptyReg fuel t j = .ok v) ∧
    (∃ out g, binSave emptyReg fuel t v = .ok out ∧
      ∀ rest, binLoad emptyReg fuel t (out ++ rest) = .ok (v, rest ++ g)) :=
  ⟨jsonRT fuel t v hg hw, binRT fuel t v hg hw⟩

/-- C1 witness: the round trip at `int` value `3` in both backings. -/
theorem roundtrip_wellformed_json_bin_witness :
    goodTy .tint = true ∧ wf .tint (.vi 3) = true ∧
    ((∃ j, jsonSave emptyReg 0 .tint (.vi 3) = .ok j ∧
        jsonLoad emptyReg 0 .tint j = .ok (.vi 3)) ∧
     (∃ out g, binSave emptyReg 0 .tint (.vi 3) = .ok out ∧
        ∀ rest, binLoad emptyReg 0 .tint (out ++ rest) = .ok (.vi 3, rest ++ g))) :=
  ⟨by simp [goodTy], by simp [wf],
    roundtrip_wellformed_json_bin 0 .tint (.vi 3) (by simp [goodTy]) (by simp [wf])⟩

/-- C1 counterexample: three supported inputs on which the claimed
universal law fails, one per restriction the amendment makes.
(1) JSON, `std::shared_ptr<int>` holding 5: `int` is neither
reflectable nor registered, so save writes only the class name — the
payload is discarded — and load leaves the fresh handle null (the
RegistryNotFound throw is the empty macro).
(2) JSON, a handle of static type `shared_ptr<base>` holding a
registered `derived{x=3, n=7}`: save writes only the static
descriptor's member `x`, and load, dispatching through the registry to
`derived`'s loader, fails decoding the missing member `n`.
(3) XML, `std::vector<std::vector<int>>` value `[[1, 2]]`: the
thread-local cached-node aliasing makes the save-side and load-side
positional child walks diverge, and the loaded value is `[[1, 0]]` —
the inner second element is read from a freshly appended empty node. -/
theorem roundtrip_counterexamples :
    (wf (.tshared .tint) (.vshared (some ("int", .vi 5))) = true ∧
     jsonSave emptyReg 0 (.tshared .tint) (.vshared (some ("int", .vi 5)))
       = .ok (.obj [(CLASS_NAME, .str "int")]) ∧
     jsonLoad emptyReg 0 (.tshared .tint) (.obj [(CLASS_NAME, .str "int")])
       = .ok (.vshared none) ∧
     Val.vshared none ≠ Val.vshared (some ("int", .vi 5))) ∧
    (wf tDerived vDer = true ∧
     jsonSave regBD 1 (.tshared tBase) (.vshared (some ("derived", vDer)))
       = .ok (.obj [(CLASS_NAME, .str "derived"), ("x", .num 3)]) ∧
     jsonLoad regBD 1 (.tshared tBase)
         (.obj [(CLASS_NAME, .str "derived"), ("x", .num 3)])
       = .error .decode) ∧
    (goodTy (.tvec (.tvec .tint)) = true ∧
     wf (.tvec (.tvec .tint)) (.vvec [.vvec [.vi 1, .vi 2]]) = true ∧
     (xmlSave emptyReg 0 (.tvec (.tvec .tint)) (.vvec [.vvec [.vi 1, .vi 2]])
         ⟨.node "root" [] .xnone [], none⟩ (.real []) >>= fun σ1 =>
       (xmlLoad emptyReg 0 (.tvec (.tvec .tint)) σ1 (.real [])).map fun q => q.2)
       = .ok (.vvec [.vvec [.vi 1, .vi 0]]) ∧
     Val.vvec [.vvec [.vi 1, .vi 0]] ≠ Val.vvec [.vvec [.vi 1, .vi 2]]) := by
  refine ⟨⟨?_, ?_, ?_, ?_⟩, ⟨?_, ?_, ?_⟩, ⟨?_, ?_, ?_, ?_⟩⟩
  · simp [wf_tshared, tyName, wf]
  · rw [jsonSave_tshared_some]
    simp [isObjTy, emptyReg]
  · rw [jsonLoad_tshared]
    simp [jsonPopClass, CLASS_NAME, EMPTY_NAME, emptyReg, isObjTy]
  · simp
  · simp [wf, tDerived, vDer, reflectionMetaDataDerived, List.attach, List.attachWith]
  · rw [jsonSave_tshared_some]
    simp [tBase, isObjTy, jsonSave, vDer, exSeq, List.attach, List.attachWith]
  · rw [jsonLoad_tshared]
    simp [jsonPopClass, CLASS_NAME, EMPTY_NAME, regBD, tDerived, reflectionMetaDataDerived,
      jsonLoad, exSeq, List.attach, List.attachWith, jGetKey, jsonPopInt]
  · simp [goodTy]
  · simp [wf, List.attach, List.attachWith]
  · simp [xmlSave, xmlSaveSeq, xmlLoad, xmlLoadSeq, xmlGetIdx, xmlIdxWalk, xmlGetName,
      xmlResize, xmlAppendAttr, xmlGetAttr, xmlSizeOp, xmlSetText, xmlGetText,
      xDeref, xGet, xMod, xAppend, xChildNamed, XNode.children, XNode.tag, XNode.attrs,
      XNode.text, xTextAsInt, xTextAsBool, xTextAsStr, SIZE_NAME, emptyReg]
  · simp

/-- C2 (code bug).  Saving a shared handle of static type `base`
holding a `derived` value writes the dynamic class name but only the
*static* descriptor's members (`serializer_impl<Archiver, T
SharedPointer>::save` calls `serialization::save(archive, *object)` at
the static element type and never consults the registry for reflectable
elements); the derived member `n` is absent from the archive.  Loading
then dispatches through the registry to `derived`'s loader, which reads
the missing member `n` as a null node and fails decoding — the claimed
"handle whose concrete dynamic type is D with D's fields" is never
produced. -/
theorem base_handle_save_drops_derived :
    wf tDerived vDer = true ∧
    jsonSave regBD 1 (.tshared tBase) (.vshared (some ("derived", vDer)))
      = .ok (.obj [(CLASS_NAME, .str "derived"), ("x", .num 3)]) ∧
    jsonLoad regBD 1 (.tshared tBase) (.obj [(CLASS_NAME, .str "derived"), ("x", .num 3)])
      = .error .decode := by
  refine ⟨?_, ?_, ?_⟩
  · simp [wf, tDerived, vDer, reflectionMetaDataDerived, List.attach, List.attachWith]
  · rw [jsonSave_tshared_some]
    simp [tBase, isObjTy, jsonSave, vDer, exSeq, List.attach, List.attachWith]
  · rw [jsonLoad_tshared]
    simp [jsonPopClass, CLASS_NAME, EMPTY_NAME, regBD, tDerived, reflectionMetaDataDerived,
      jsonLoad, exSeq, List.attach, List.attachWith, jGetKey, jsonPopInt]

/-- C3 (code bug).  Loading `std::map<int,int>` from a JSON array of
odd length 3: the parity `SERIALIZATION_CHECK` expands to nothing
(`SERIALIZATION_THROW` is the empty macro), the loop runs `3 / 2 = 1`
times, and the load silently returns the single pair `{1 ↦ 2}` instead
of failing with SizeMismatch. -/
theorem odd_map_load_silently_truncates :
    jsonLoad emptyReg 0 (.tmap .tint .tint) (.arr [.num 1, .num 2, .num 3])
      = .ok (.vmap [(.vi 1, .vi 2)]) := by
  simp [jsonLoad, exSeq, jsonSize, jGetIdx, jsonPopInt, List.range_succ]

/-- C4 (code bug).  Loading `std::variant<int,bool>` (arity 2) from an
archive whose stored tag is 5: the bounds `SERIALIZATION_CHECK` expands
to nothing and `loaders[index]` reads past the end of the loader table
— undefined behaviour, not an InvalidIndex failure. -/
theorem variant_oob_tag_undefined :
    jsonLoad emptyReg 0 (.tvar [.tint, .tbool])
      (.obj [(INDEX_NAME, .num 5), (VALUE_NAME, .null)]) = .error .undefined := by
  rw [jsonLoad_tvar]
  simp [jsonPopIdx, jGetKey, INDEX_NAME]

/-- C5 (code bug).  A value nested `contextMaxDepth + 1 = 1001`
optional levels deep saves and re-loads successfully: no traversal
instantiates `detail::serialization_context`, so no depth counter is
maintained and exceeding the documented bound of 1000 produces no
RecursionLimit failure. -/
theorem deep_nesting_no_recursion_limit :
    ∃ j, jsonSave emptyReg 0 (deepTy (contextMaxDepth + 1))
           (deepVal (contextMaxDepth + 1)) = .ok j ∧
         jsonLoad emptyReg 0 (deepTy (contextMaxDepth + 1)) j
           = .ok (deepVal (contextMaxDepth + 1)) :=
  deepRT_ok (contextMaxDepth + 1)

/-- C6 (confirmed).  A null shared owned handle saves as exactly the
empty-sentinel class name `"null object!"` and nothing else, and
loading an archive whose class name is the sentinel yields the null
handle, for any registry and any element type; the sentinel string
round-trips unchanged through the XML attribute channel and the
byte-stream channel as well. -/
theorem null_shared_sentinel_roundtrip :
    (∀ (ρ : Reg) (fuel : Nat) (t : Ty),
        jsonSave ρ fuel (.tshared t) (.vshared none)
          = .ok (.obj [(CLASS_NAME, .str EMPTY_NAME)])) ∧
    (∀ (ρ : Reg) (fuel : Nat) (t : Ty),
        jsonLoad ρ fuel (.tshared t) (.obj [(CLASS_NAME, .str EMPTY_NAME)])
          = .ok (.vshared none)) ∧
    xmlPopClassName (xmlPushClassName [] EMPTY_NAME) = EMPTY_NAME ∧
    binPopClassName (binPushClassName [] EMPTY_NAME) = some (EMPTY_NAME, []) := by
  refine ⟨fun ρ fuel t => jsonSave_tshared_none ρ fuel t, fun ρ fuel t => ?_, ?_, ?_⟩
  · rw [jsonLoad_tshared]
    simp [jsonPopClass, CLASS_NAME]
  · simp [xmlPushClassName, xmlPopClassName]
  · simp [binPushClassName, binPopClassName]

/-- C7 (confirmed).  The derived descriptor
(`std::tuple_cat(Parent::properties(), std::make_tuple(<own>))`) is the
concatenation of the parent descriptor and the child's added entries:
its length is the sum, positions below the parent length read the
parent's entries, and positions at parent-length offset read the
child's own entries — parent first, then child, both in declaration
order. -/
theorem derived_descriptor_concat (P O : List (String × Ty)) (i j : Nat)
    (hi : i < P.length) :
    (reflectionMetaDataDerived P O).length = P.length + O.length ∧
    (reflectionMetaDataDerived P O)[i]? = P[i]? ∧
    (reflectionMetaDataDerived P O)[P.length + j]? = O[j]? := by
  refine ⟨by simp [reflectionMetaDataDerived], ?_, ?_⟩
  · rw [reflectionMetaDataDerived, List.getElem?_append, if_pos hi]
  · rw [reflectionMetaDataDerived, List.getElem?_append, if_neg (by omega)]
    congr 1
    omega

/-- C7 witness: the fixture pair `base`/`derived` — the derived
descriptor reads `x` (parent) at position 0 and `n` (own) at position
1. -/
theorem derived_descriptor_concat_witness :
    0 < ([("x", Ty.tint)] : List (String × Ty)).length ∧
    ((reflectionMetaDataDerived [("x", Ty.tint)] [("n", Ty.tint)]).length
        = 1 + 1 ∧
     (reflectionMetaDataDerived [("x", Ty.tint)] [("n", Ty.tint)])[0]?
        = ([("x", Ty.tint)] : List (String × Ty))[0]? ∧
     (reflectionMetaDataDerived [("x", Ty.tint)] [("n", Ty.tint)])[1 + 0]?
        = ([("n", Ty.tint)] : List (String × Ty))[0]?) :=
  ⟨by simp, by
    have h := derived_descriptor_concat [("x", Ty.tint)] [("n", Ty.tint)] 0 0 (by simp)
    simpa using h⟩

/-- C8 (confirmed).  For a reflectable aggregate with a nonempty
descriptor whose stored class name is not the empty sentinel, the load
trace is exactly: pop the class name, load every descriptor member in
order, then call the `initialize` hook — so `initialize` runs exactly
once, after all members; and no save trace (null or not) ever contains
an `initialize` call. -/
theorem init_hook_after_members (cn : String) (props : List String)
    (o : Option String) (h1 : props ≠ []) (h2 : cn ≠ EMPTY_NAME) :
    load_object_trace cn props
      = .popClassName cn :: (props.map .loadMember ++ [.callInit]) ∧
    (load_object_trace cn props).count .callInit = 1 ∧
    (save_object_trace o props).count .callInit = 0 := by
  have htr : load_object_trace cn props
      = .popClassName cn :: (props.map .loadMember ++ [.callInit]) := by
    rw [load_object_trace]
    rw [if_neg (by simpa using h1), if_neg h2]
  refine ⟨htr, ?_, ?_⟩
  · rw [htr]
    rw [List.count_cons, List.count_append]
    have hz : (props.map ObjEvent.loadMember).count .callInit = 0 := by
      rw [List.count_eq_zero]
      intro h
      obtain ⟨x, _, hx⟩ := List.mem_map.mp h
      exact ObjEvent.noConfusion hx
    simp [hz]
  · cases o with
    | none =>
        rw [save_object_trace]
        simp [List.count_cons]
    | some dyn =>
        rw [save_object_trace]
        rw [List.count_cons]
        have hz : (props.map ObjEvent.saveMember).count .callInit = 0 := by
          rw [List.count_eq_zero]
          intro h
          obtain ⟨x, _, hx⟩ := List.mem_map.mp h
          exact ObjEvent.noConfusion hx
        simp [hz]

/-- C8 witness: the fixture class `base` with descriptor `["x"]`. -/
theorem init_hook_after_members_witness :
    (["x"] ≠ ([] : List String)) ∧ ("base" ≠ EMPTY_NAME) ∧
    (load_object_trace "base" ["x"]
       = .popClassName "base" :: ((["x"].map .loadMember) ++ [.callInit]) ∧
     (load_object_trace "base" ["x"]).count .callInit = 1 ∧
     (save_object_trace (some "base") ["x"]).count .callInit = 0) :=
  ⟨by decide, by decide,
    init_hook_after_members "base" ["x"] (some "base") (by decide) (by decide)⟩

/-- C9 (corrected).  The variant tag *value* is truncated to 8 bits
(`static_cast<unsigned char>`) and arities above 255 are rejected at
compile time; but the truncated tag is then passed to `push_index`,
whose parameter type is `unsigned int`, so in the byte-stream format
the tag occupies four bytes, not a single byte.  The 4-byte write reads
back to the same tag. -/
theorem variant_tag_four_bytes (i : Nat) (h : i < 256) :
    (variantTagBytes i).length = 4 ∧
    variantTagBytes i = uintBytes i ∧
    uintOfBytes (variantTagBytes i) = i ∧
    variantArityOk 255 = true := by
  have hm : i % 256 = i := Nat.mod_eq_of_lt h
  refine ⟨rfl, ?_, ?_, by decide⟩
  · rw [variantTagBytes, binPushIndexBytes, hm]
  · rw [variantTagBytes, binPushIndexBytes, hm, uintBytes, uintOfBytes]
    omega

/-- C9 witness: tag 1. -/
theorem variant_tag_four_bytes_witness :
    1 < 256 ∧
    ((variantTagBytes 1).length = 4 ∧
     variantTagBytes 1 = uintBytes 1 ∧
     uintOfBytes (variantTagBytes 1) = 1 ∧
     variantArityOk 255 = true) :=
  ⟨by decide, variant_tag_four_bytes 1 (by decide)⟩

/-- C9 counterexample: the byte-stream encoding of tag 1 is four bytes
long, not one — "the variant tag occupies a single byte" is false. -/
theorem variant_tag_not_single_byte :
    (variantTagBytes 1).length = 4 ∧ (variantTagBytes 1).length ≠ 1 := by
  refine ⟨rfl, by decide⟩

/-- C10 (confirmed).  `const char*` has a push branch in every format
(a null pointer stores JSON null, a non-null pointer stores its
characters as a string), but the pop overloads reject `const char*`
with a compile-time `static_assert` in both the JSON and the XML
wrapper; the stored string reads back only as `std::string`. -/
theorem cstr_save_only :
    jsonPushAccepts .pcstr = true ∧
    jsonPopAccepts .pcstr = false ∧
    xmlPopAccepts .pcstr = false ∧
    jsonPopAccepts .pstring = true ∧
    jsonPushCStr none = Json.null ∧
    (∀ s, jsonPushCStr (some s) = .str s ∧
          jsonPopStr (jsonPushCStr (some s)) = .ok s) := by
  refine ⟨rfl, rfl, rfl, rfl, rfl, fun s => ⟨rfl, rfl⟩⟩

end SerialModel
